import Mathlib

/-!
# Route generation of `tools/goctl/api/gogen`

A shallow embedding of `genroutes.go` and `genmiddleware.go` (and the helpers they call)
together with the properties their specification states.

Go strings are byte sequences: a string is modelled as `List UInt8`, string literals are
written `ascii "..."`.  Functions of the Go standard library (`strings`, `path`, `fmt`,
`text/template`) are modelled next to the code that calls them; functions and constants of
this repository that live outside these two files are parameters of the definitions.
-/

namespace Gogen

/-! ## Strings -/

/-- A Go string: a sequence of bytes. -/
abbrev Str := List UInt8

/-- The bytes of an ASCII string literal. -/
def ascii (s : String) : Str := s.toList.map (fun c => UInt8.ofNat c.toNat)

/-- Go's `a < b` on strings: byte-wise lexicographic order. -/
def strLt : Str → Str → Bool
  | [], [] => false
  | [], _ :: _ => true
  | _ :: _, [] => false
  | a :: as, b :: bs => if a < b then true else if b < a then false else strLt as bs

/-- Go's `strings.Join`. -/
def stringsJoin : List Str → Str → Str
  | [], _ => []
  | [a], _ => a
  | a :: b :: rest, sep => a ++ sep ++ stringsJoin (b :: rest) sep

/-- Go's `strings.ReplaceAll(s, string(old), "")` for a one-byte `old`: every occurrence of
the byte is removed. -/
def removeByte (old : UInt8) (s : Str) : Str := s.filter (fun c => c != old)

/-- The UTF-8 encodings of the code points for which `unicode.IsSpace` holds:
`\t \n \v \f \r`, space, U+0085, U+00A0, U+1680, U+2000..U+200A, U+2028, U+2029, U+202F,
U+205F and U+3000. -/
def spaceEncodings : List Str :=
  [[0x09], [0x0A], [0x0B], [0x0C], [0x0D], [0x20],
   [0xC2, 0x85], [0xC2, 0xA0], [0xE1, 0x9A, 0x80],
   [0xE2, 0x80, 0x80], [0xE2, 0x80, 0x81], [0xE2, 0x80, 0x82], [0xE2, 0x80, 0x83],
   [0xE2, 0x80, 0x84], [0xE2, 0x80, 0x85], [0xE2, 0x80, 0x86], [0xE2, 0x80, 0x87],
   [0xE2, 0x80, 0x88], [0xE2, 0x80, 0x89], [0xE2, 0x80, 0x8A],
   [0xE2, 0x80, 0xA8], [0xE2, 0x80, 0xA9], [0xE2, 0x80, 0xAF], [0xE2, 0x81, 0x9F],
   [0xE3, 0x80, 0x80]]

/-- Removes one leading occurrence of one of `encs`, if `s` starts with one. -/
def stripOne (encs : List Str) (s : Str) : Option Str :=
  (encs.find? (fun e => e.isPrefixOf s)).map (fun e => s.drop e.length)

/-- Removes leading occurrences of `encs` for as long as there is one (at most `n` times). -/
def trimLeftWith (encs : List Str) : Nat → Str → Str
  | 0, s => s
  | n + 1, s =>
    match stripOne encs s with
    | some t => trimLeftWith encs n t
    | none => s

/-- Go's `strings.TrimLeftFunc(s, unicode.IsSpace)`: the leading white space is removed. -/
def trimLeftSpace (s : Str) : Str := trimLeftWith spaceEncodings s.length s

/-- Go's `strings.TrimRightFunc(s, unicode.IsSpace)`: the trailing white space is removed.
A string ends with a white-space code point exactly when its reversal starts with the
reversed encoding of one. -/
def trimRightSpace (s : Str) : Str :=
  (trimLeftWith (spaceEncodings.map List.reverse) s.length s.reverse).reverse

/-- Go's `strings.TrimSpace`: leading and trailing white space, as defined by Unicode, is
removed. -/
def TrimSpace (s : Str) : Str := trimRightSpace (trimLeftSpace s)

/-! ## `fmt` verbs -/

/-- The verb `%d` applied to a non-negative integer: its decimal digits. -/
def fmtNat (n : Nat) : Str := (Nat.toDigits 10 n).map (fun c => UInt8.ofNat c.toNat)

/-- The verb `%d` applied to an `int64`. -/
def fmtInt : Int → Str
  | Int.ofNat n => fmtNat n
  | Int.negSucc n => ascii "-" ++ fmtNat (n + 1)

/-! ## `text/template`

A parsed template is a list of nodes: literal text, the action `{{.name}}`, and
`{{if .name}} ... {{else}} ... {{end}}` over text and field actions.  The data of an
execution is a Go map with string keys. -/

/-- A value stored in the data map of a template execution. -/
inductive Val where
  | str (s : Str)
  | bool (b : Bool)
  | noValue
deriving DecidableEq, Repr

/-- The data of a template execution: the entries of the map and what a missing key
evaluates to (with the default option `missingkey` it is no value, for every element type of
the map). -/
structure Data where
  entries : List (String × Val)
  missing : Val

/-- Evaluation of the field action `.name` on a map. -/
def Data.field (d : Data) (name : String) : Val :=
  match d.entries.lookup name with
  | some v => v
  | none => d.missing

/-- How `text/template` prints a value. -/
def Val.print : Val → Str
  | .str s => s
  | .bool true => ascii "true"
  | .bool false => ascii "false"
  | .noValue => ascii "<no value>"

/-- The truth of a value in `{{if}}`: a string is true when it is not empty. -/
def Val.truth : Val → Bool
  | .str s => !s.isEmpty
  | .bool b => b
  | .noValue => false

/-- A template node without nested structure. -/
inductive Leaf where
  | text (s : Str)
  | field (name : String)
deriving DecidableEq, Repr

/-- A template node. -/
inductive Node where
  | leaf (l : Leaf)
  | ifElse (cond : String) (thenBranch elseBranch : List Leaf)
deriving DecidableEq, Repr

/-- A parsed template. -/
abbrev Template := List Node

/-- Output of one leaf. -/
def Leaf.exec (d : Data) : Leaf → Str
  | .text s => s
  | .field name => (d.field name).print

/-- Output of a list of leaves. -/
def execLeaves (d : Data) (ls : List Leaf) : Str := (ls.map (Leaf.exec d)).flatten

/-- Output of one node. -/
def Node.exec (d : Data) : Node → Str
  | .leaf l => l.exec d
  | .ifElse cond t e => if (d.field cond).truth then execLeaves d t else execLeaves d e

/-- The text `(*Template).Execute` writes for the data `d`. -/
def Template.execute (t : Template) (d : Data) : Str := (t.map (Node.exec d)).flatten

/-- The constant `routesAdditionTemplate`, parsed:
```
\n\t{{if .useGin}}server.{{.method}}("{{.path}}"{{.middleware}},{{.handler}}){{else}}server.AddRoutes(\n\t\t{{.routes}} {{.jwt}}{{.signature}} {{.prefix}} {{.timeout}}\n\t)\n{{end}}
``` -/
def routesAdditionTemplate : Template :=
  [ .leaf (.text (ascii "\n\t")),
    .ifElse "useGin"
      [ .text (ascii "server."), .field "method", .text (ascii "(\""), .field "path",
        .text (ascii "\""), .field "middleware", .text (ascii ","), .field "handler",
        .text (ascii ")") ]
      [ .text (ascii "server.AddRoutes(\n\t\t"), .field "routes", .text (ascii " "),
        .field "jwt", .field "signature", .text (ascii " "), .field "prefix",
        .text (ascii " "), .field "timeout", .text (ascii "\n\t)\n") ] ]

/-! ## The intermediate representation -/

/-- The struct `route`. -/
structure route where
  method : Str
  path : Str
  handler : Str
deriving DecidableEq, Repr

/-- The struct `group` (its field `prefix` is called `pathPrefix` here). -/
structure group where
  routes : List route
  jwtEnabled : Bool
  signatureEnabled : Bool
  authName : Str
  timeout : Str
  middlewares : List Str
  pathPrefix : Str
  jwtTrans : Str
deriving DecidableEq, Repr

/-- The errors of route generation. -/
inductive GenError where
  /-- The error returned by `time.ParseDuration` for the given text. -/
  | invalidDuration (raw : Str)
  /-- The error `timeout should not less than 1ms, now %v`. -/
  | timeoutTooSmall (duration : Int)
  /-- An error returned by a collaborator (template loading, file naming, file writer). -/
  | external (msg : Str)
deriving DecidableEq, Repr

/-- The constant `timeoutThreshold = time.Millisecond`, in nanoseconds. -/
def timeoutThreshold : Int := 1000000

/-- The constant `time.Millisecond`, in nanoseconds. -/
def Millisecond : Int := 1000000

/-! ## `genCommonRoutes` -/

/-- The inner loop of `genCommonRoutes` over `g.routes`: one record per route is written to
the group builder. -/
def writeRoutes (gbuilder : Str) : List route → Str
  | [] => gbuilder
  | r :: rs =>
    writeRoutes
      (gbuilder ++ (ascii "\n\t\t\x7b\n\t\t\tMethod:  " ++ r.method ++
        ascii ",\n\t\t\tPath:    \"" ++ r.path ++
        ascii "\",\n\t\t\tHandler: " ++ r.handler ++ ascii ",\n\t\t\x7d,")) rs

/-- The timeout option of a group (lines 152-166): nothing for an empty timeout, an error
when the text does not parse or the duration is below the threshold, otherwise the option
with the number of milliseconds; the flag tells whether the option is present. -/
def timeoutOption (parseDuration : Str → Option Int) (g : group) :
    Except GenError (Str × Bool) :=
  if g.timeout.length > 0 then
    match parseDuration g.timeout with
    | none => .error (.invalidDuration g.timeout)
    | some duration =>
      if duration < timeoutThreshold then .error (.timeoutTooSmall duration)
      else .ok (ascii "rest.WithTimeout(" ++ fmtInt (Int.tdiv duration Millisecond) ++
                  ascii " * time.Millisecond),", true)
  else .ok ([], false)

/-- The variable `jwt` of a group (lines 168-174): the JWT option followed by the
JWT-transition option. -/
def jwtOption (g : group) : Str :=
  let jwt : Str :=
    if g.jwtEnabled then
      ascii "\n rest.WithJwt(serverCtx.Config." ++ g.authName ++ ascii ".AccessSecret),"
    else []
  if g.jwtTrans.length > 0 then
    jwt ++ (ascii "\n rest.WithJwtTransition(serverCtx.Config." ++ g.jwtTrans ++
      ascii ".PrevSecret,serverCtx.Config." ++ g.jwtTrans ++ ascii ".Secret),")
  else jwt

/-- The variable `signature` of a group (lines 175-178). -/
def signatureOption (g : group) : Str :=
  if g.signatureEnabled then ascii "\n rest.WithSignature(serverCtx.Config.Signature),"
  else []

/-- The variable `prefix` of a group (lines 179-182). -/
def prefixOption (g : group) : Str :=
  if g.pathPrefix.length > 0 then ascii "\nrest.WithPrefix(\"" ++ g.pathPrefix ++ ascii "\"),"
  else []

/-- The assignment loop `params[i] = "serverCtx." + params[i]`; `params` shares its
elements with `g.middlewares`. -/
def addServerCtx (params : List Str) : List Str :=
  params.map (fun p => ascii "serverCtx." ++ p)

/-- The variable `routes` of a group (lines 184-197), with the middleware list of the group
as the loop leaves it. -/
def routesText (g : group) : Str × List Str :=
  let gbuilder := writeRoutes (ascii "[]rest.Route\x7b") g.routes
  if g.middlewares.length > 0 then
    let gbuilder := gbuilder ++ ascii "\n\x7d...,"
    let params := addServerCtx g.middlewares
    let middlewareStr := stringsJoin params (ascii ", ")
    (ascii "rest.WithMiddlewares(\n[]rest.Middleware\x7b " ++ middlewareStr ++
      ascii " \x7d, \n " ++ TrimSpace gbuilder ++ ascii " \n),", params)
  else
    let gbuilder := gbuilder ++ ascii "\n\x7d,"
    (TrimSpace gbuilder, g.middlewares)

/-- The data map passed to the group template (lines 199-205), a `map[string]string`. -/
def commonData (routes jwt signature pfx timeout : Str) : Data :=
  { entries := [("routes", .str routes), ("jwt", .str jwt), ("signature", .str signature),
                ("prefix", .str pfx), ("timeout", .str timeout)],
    missing := .noValue }

/-- What `genCommonRoutes` leaves behind: its two results, the builder and the group slice
(whose middleware names the rendering overwrites in place). -/
structure RenderResult where
  hasTimeout : Bool
  err : Option GenError
  builder : Str
  groups : List group
deriving DecidableEq, Repr

/-- One iteration of the loop of `genCommonRoutes`: the text written to the builder, whether
a timeout option was rendered, and the group as the iteration leaves it. -/
def genCommonGroup (parseDuration : Str → Option Int) (gt : Template) (g : group) :
    Except GenError (Str × Bool × group) :=
  match timeoutOption parseDuration g with
  | .error e => .error e
  | .ok (timeout, used) =>
    let jwt := jwtOption g
    let signature := signatureOption g
    let pfx := prefixOption g
    let (routes, params) := routesText g
    .ok (gt.execute (commonData routes jwt signature pfx timeout), used,
         { g with middlewares := params })

/-- The loop of `genCommonRoutes`; `done` are the groups already rendered. -/
def genCommonLoop (parseDuration : Str → Option Int) (gt : Template) :
    List group → Str → Bool → List group → RenderResult
  | [], builder, hasTimeout, done => ⟨hasTimeout, none, builder, done⟩
  | g :: rest, builder, hasTimeout, done =>
    match genCommonGroup parseDuration gt g with
    | .error e => ⟨false, some e, builder, done ++ g :: rest⟩
    | .ok (text, used, g1) =>
      genCommonLoop parseDuration gt rest (builder ++ text) (hasTimeout || used)
        (done ++ [g1])

/-- The function `genCommonRoutes`; `parseDuration` is `time.ParseDuration` (`none` is an
error), `templateText` is taken parsed. -/
def genCommonRoutes (parseDuration : Str → Option Int) (builder : Str) (groups : List group)
    (templateText : Template) : RenderResult :=
  genCommonLoop parseDuration templateText groups builder false []

/-- The timeout option of a group when it is accepted, the empty string otherwise. -/
def timeoutText (parseDuration : Str → Option Int) (g : group) : Str :=
  match timeoutOption parseDuration g with
  | .ok (t, _) => t
  | .error _ => []

/-- The text one accepted group adds to the builder. -/
def groupText (parseDuration : Str → Option Int) (gt : Template) (g : group) : Str :=
  gt.execute (commonData (routesText g).1 (jwtOption g) (signatureOption g) (prefixOption g)
    (timeoutText parseDuration g))

/-- The group as one iteration of the rendering loop leaves it. -/
def rendered (g : group) : group := { g with middlewares := (routesText g).2 }

/-! ## `genGinRoutes` -/

/-- The data map passed to the group template by `genGinRoutes`, a `map[string]any`. -/
def ginData (r : route) (middleware : Str) : Data :=
  { entries := [("useGin", .bool true), ("method", .str r.method), ("path", .str r.path),
                ("middleware", .str middleware), ("handler", .str r.handler)],
    missing := .noValue }

/-- The variable `middleware` of `genGinRoutes`: `",serverCtx." + name` for every middleware
name of the group, in order. -/
def ginMiddleware : List Str → Str
  | [] => []
  | p :: ps => ascii ",serverCtx." ++ p ++ ginMiddleware ps

/-- The loop of `genGinRoutes` over the routes of one group. -/
def ginWriteRoutes (gt : Template) (middleware : Str) (builder : Str) : List route → Str
  | [] => builder
  | r :: rs => ginWriteRoutes gt middleware (builder ++ gt.execute (ginData r middleware)) rs

/-- The loop of `genGinRoutes` over the groups. -/
def genGinLoop (gt : Template) : List group → Str → Str
  | [], builder => builder
  | g :: rest, builder =>
    genGinLoop gt rest (ginWriteRoutes gt (ginMiddleware g.middlewares) builder g.routes ++
      ascii "\n")

/-- The function `genGinRoutes`; the group slice is only read. -/
def genGinRoutes (builder : Str) (groups : List group) (templateText : Template) :
    RenderResult :=
  ⟨false, none, genGinLoop templateText groups builder, groups⟩

/-! ## The API specification (package `spec`) -/

/-- The type `spec.Annotation`: its `Properties` map, as a list of entries. -/
structure Annotation where
  Properties : List (Str × Str)
deriving DecidableEq, Repr

/-- The lookup `Properties[key]`, the empty string for a missing key. -/
def Annotation.get (a : Annotation) (key : Str) : Str :=
  match a.Properties.lookup key with
  | some v => v
  | none => []

/-- The fields of `spec.Route` the generator reads. -/
structure Route where
  AtServerAnnotation : Annotation
  Method : Str
  Path : Str
  Handler : Str
deriving DecidableEq, Repr

/-- The method `Route.GetAnnotation`. -/
def Route.GetAnnotation (r : Route) (key : Str) : Str := r.AtServerAnnotation.get key

/-- The type `spec.Group`. -/
structure Group where
  Annotation : Annotation
  Routes : List Route
deriving DecidableEq, Repr

/-- The method `Group.GetAnnotation`. -/
def Group.GetAnnotation (g : Group) (key : Str) : Str := g.Annotation.get key

/-- The type `spec.Service`. -/
structure Service where
  Groups : List Group
deriving DecidableEq, Repr

/-- The fields of `spec.ApiSpec` the generator reads. -/
structure ApiSpec where
  Service : Service
deriving DecidableEq, Repr

/-! ## `path.Join` -/

/-- The byte `/`. -/
def slash : UInt8 := 0x2F

/-- The byte `.`. -/
def dot : UInt8 := 0x2E

/-- The byte `"`. -/
def quote : UInt8 := 0x22

/-- The backtracking of `path.Clean` at a `..` element,
`out.w--; for out.w > dotdot && out.index(out.w) != '/' { out.w-- }`, on the written part
of the buffer held last byte first; `top` is the byte at index `out.w`. -/
def backtrackLoop (dotdot : Nat) : Str → UInt8 → Str
  | [], _ => []
  | c :: r, top =>
    if (c :: r).length > dotdot ∧ top ≠ slash then backtrackLoop dotdot r c else c :: r

/-- The statement `out.w--` followed by the loop `backtrackLoop`. -/
def backtrack (dotdot : Nat) : Str → Str
  | [] => []
  | c :: r => backtrackLoop dotdot r c

/-- The main loop of `path.Clean`: `rest` is `path[r:]`, `out` the written part of the
buffer held last byte first; every iteration consumes at least one byte of `rest`. -/
def cleanLoop (rooted : Bool) : Nat → Str → Str → Nat → Str
  | 0, _, out, _ => out
  | fuel + 1, rest, out, dotdot =>
    match rest with
    | [] => out
    | c :: t =>
      if c = slash then
        -- empty path element
        cleanLoop rooted fuel t out dotdot
      else if c = dot ∧ (t = [] ∨ t.head? = some slash) then
        -- . element
        cleanLoop rooted fuel t out dotdot
      else if c = dot ∧ t.head? = some dot ∧
          (t.drop 1 = [] ∨ (t.drop 1).head? = some slash) then
        -- .. element: remove to last /
        if out.length > dotdot then
          cleanLoop rooted fuel (t.drop 1) (backtrack dotdot out) dotdot
        else if !rooted then
          let out := if out.length > 0 then slash :: out else out
          let out := dot :: dot :: out
          cleanLoop rooted fuel (t.drop 1) out out.length
        else
          cleanLoop rooted fuel (t.drop 1) out dotdot
      else
        -- real path element: add slash if needed, copy element
        let out :=
          if (rooted && out.length != 1) || (!rooted && out.length != 0) then slash :: out
          else out
        cleanLoop rooted fuel ((c :: t).dropWhile (fun b => b != slash))
          (((c :: t).takeWhile (fun b => b != slash)).reverse ++ out) dotdot

/-- Go's `path.Clean`. -/
def pathClean (path : Str) : Str :=
  match path with
  | [] => ascii "."
  | c :: t =>
    let rooted := decide (c = slash)
    let out :=
      if rooted then cleanLoop true path.length t [slash] 1
      else cleanLoop false path.length path [] 0
    if out.length = 0 then ascii "." else out.reverse

/-- The loop of Go's `path.Join` that joins the non-empty elements with `/`. -/
def joinNonEmpty : List Str → Str → Str
  | [], buf => buf
  | e :: rest, buf =>
    if buf.length > 0 ∨ e ≠ [] then
      joinNonEmpty rest ((if buf.length > 0 then buf ++ [slash] else buf) ++ e)
    else joinNonEmpty rest buf

/-- Go's `path.Join`. -/
def pathJoin (elem : List Str) : Str :=
  if (elem.map List.length).sum = 0 then [] else pathClean (joinNonEmpty elem [])

/-! ## `getRoutes` -/

/-- The table `mapping`. -/
def mapping : List (Str × Str) :=
  [ (ascii "delete", ascii "http.MethodDelete"),
    (ascii "get", ascii "http.MethodGet"),
    (ascii "head", ascii "http.MethodHead"),
    (ascii "post", ascii "http.MethodPost"),
    (ascii "put", ascii "http.MethodPut"),
    (ascii "patch", ascii "http.MethodPatch"),
    (ascii "connect", ascii "http.MethodConnect"),
    (ascii "options", ascii "http.MethodOptions"),
    (ascii "trace", ascii "http.MethodTrace") ]

/-- The table `ginMapping`. -/
def ginMapping : List (Str × Str) :=
  [ (ascii "delete", ascii "DELETE"),
    (ascii "get", ascii "GET"),
    (ascii "head", ascii "HEAD"),
    (ascii "post", ascii "POST"),
    (ascii "put", ascii "PUT"),
    (ascii "patch", ascii "PATCH"),
    (ascii "options", ascii "OPTIONS") ]

/-- Indexing a `map[string]string`: the empty string for a missing key. -/
def mapIndex (m : List (Str × Str)) (key : Str) : Str :=
  match m.lookup key with
  | some v => v
  | none => []

/-- The function `toPrefix`: `strings.ReplaceAll(folder, "/", "")`. -/
def toPrefix (folder : Str) : Str := removeByte slash folder

/-- Go's `strings.ToUpper` applied to the one-byte string `string(c)`: an ASCII lower-case
letter becomes the upper-case letter, any other ASCII byte is kept, and a byte from 0x80
on, which is not valid UTF-8 by itself, becomes the encoding of U+FFFD. -/
def toUpperByte (c : UInt8) : Str :=
  if c < 0x80 then
    if 0x61 ≤ c ∧ c ≤ 0x7A then [c - 0x20] else [c]
  else [0xEF, 0xBF, 0xBD]

/-- The expression `strings.ToUpper(handler[:1]) + handler[1:]`; `handler` is never empty
where the generator evaluates it. -/
def upperFirst : Str → Str
  | [] => []
  | c :: rest => toUpperByte c ++ rest

/-- Go's `strings.Split(s, string(sep))` for a one-byte separator. -/
def splitByte (sep : UInt8) : Str → List Str
  | [] => [[]]
  | c :: s =>
    if c = sep then [] :: splitByte sep s
    else
      match splitByte sep s with
      | [] => [[c]]
      | h :: t => (c :: h) :: t

/-- The handler reference of a route (lines 270-280); `getHandlerName` is the function of
that name in `genhandlers.go`. -/
def handlerRef (groupProperty : Str) (getHandlerName : Route → Str) (g : Group) (r : Route) :
    Str :=
  let handler := getHandlerName r
  let handler := handler ++ ascii "(serverCtx)"
  let folder := r.GetAnnotation groupProperty
  if folder.length > 0 then
    toPrefix folder ++ ascii "." ++ upperFirst handler
  else
    let folder := g.GetAnnotation groupProperty
    if folder.length > 0 then
      toPrefix folder ++ ascii "." ++ upperFirst handler
    else handler

/-- The route entry of a route (lines 270-291). -/
def routeEntry (groupProperty : Str) (getHandlerName : Route → Str) (useGin : Bool)
    (g : Group) (r : Route) : route :=
  let handler := handlerRef groupProperty getHandlerName g r
  let method := if useGin then mapIndex ginMapping r.Method else mapIndex mapping r.Method
  { method := method, path := r.Path, handler := handler }

/-- The prefix stored for a group (lines 315-321) from the value of its prefix annotation:
quotes removed, white space trimmed and, when something is left, joined onto `/`; the
field keeps its zero value otherwise. -/
def groupPrefix (raw : Str) : Str :=
  let pfx := removeByte quote raw
  let pfx := TrimSpace pfx
  if pfx.length > 0 then pathJoin [ascii "/", pfx] else []

/-- The group IR of a group (the body of the outer loop of `getRoutes`); `routePrefixKey` is
the constant `spec.RoutePrefixKey`. -/
def groupIR (groupProperty routePrefixKey : Str) (getHandlerName : Route → Str)
    (useGin : Bool) (g : Group) : group :=
  let jwt := g.GetAnnotation (ascii "jwt")
  let jwtTrans := g.GetAnnotation (ascii "jwtTransition")
  let signature := g.GetAnnotation (ascii "signature")
  let middleware := g.GetAnnotation (ascii "middleware")
  { routes :=
      g.Routes.foldl (fun routes r => routes ++ [routeEntry groupProperty getHandlerName useGin g r])
        [],
    timeout := g.GetAnnotation (ascii "timeout"),
    authName := if jwt.length > 0 then jwt else [],
    jwtEnabled := decide (jwt.length > 0),
    jwtTrans := if jwtTrans.length > 0 then jwtTrans else [],
    signatureEnabled := decide (signature = ascii "true"),
    middlewares := if middleware.length > 0 then splitByte 0x2C middleware else [],
    pathPrefix := groupPrefix (g.GetAnnotation routePrefixKey) }

/-- The function `getRoutes`; `groupProperty` is the constant of that name. -/
def getRoutes (groupProperty routePrefixKey : Str) (getHandlerName : Route → Str)
    (api : ApiSpec) (useGin : Bool) : Except GenError (List group) :=
  .ok (api.Service.Groups.foldl
    (fun routes g => routes ++ [groupIR groupProperty routePrefixKey getHandlerName useGin g]) [])

/-! ## `genRouteImports` -/

/-- Go's `a <= b` on strings. -/
def strLe (a b : Str) : Prop := strLt b a = false

instance : DecidableRel strLe := fun a b => inferInstanceAs (Decidable (strLt b a = false))

/-- Go's `sort.Strings`: the strings in ascending order. -/
def sortStrings (l : List Str) : List Str := l.insertionSort strLe

/-- The method `AddStr` of `collection.Set` for one string; the set is held as the list of
its distinct keys. -/
def setAddStr (set : List Str) (key : Str) : List Str :=
  if key ∈ set then set else set ++ [key]

/-- The import entry of a sub-package folder (lines 253-254); `JoinPackages` is
`pathx.JoinPackages`, `handlerDir` the constant of that name. -/
def importEntry (handlerDir : Str) (JoinPackages : List Str → Str) (parentPkg folder : Str) :
    Str :=
  toPrefix folder ++ ascii " \"" ++ JoinPackages [parentPkg, handlerDir, folder] ++ ascii "\""

/-- The folder `genRouteImports` imports for a route: the annotation of the route, else that
of its group (empty when neither is present). -/
def importFolder (groupProperty : Str) (g : Group) (r : Route) : Str :=
  let folder := r.GetAnnotation groupProperty
  if folder.length = 0 then g.GetAnnotation groupProperty else folder

/-- The two loops of `genRouteImports` (lines 244-256) that fill the import set. -/
def collectImports (handlerDir groupProperty : Str) (JoinPackages : List Str → Str)
    (parentPkg : Str) (groups : List Group) (importSet : List Str) : List Str :=
  groups.foldl
    (fun set g =>
      g.Routes.foldl
        (fun set r =>
          let folder := importFolder groupProperty g r
          if folder.length = 0 then set
          else setAddStr set (importEntry handlerDir JoinPackages parentPkg folder))
        set)
    importSet

/-- The function `genRouteImports`; `contextDir` and `ProjectOpenSourceURL` are the constants
of these names, `KeysStr` is the order in which the set enumerates its keys. -/
def genRouteImports (contextDir handlerDir groupProperty ProjectOpenSourceURL : Str)
    (JoinPackages : List Str → Str) (KeysStr : List Str → List Str) (parentPkg : Str)
    (api : ApiSpec) : Str :=
  let importSet := setAddStr [] (ascii "\"" ++ JoinPackages [parentPkg, contextDir] ++ ascii "\"")
  let importSet :=
    collectImports handlerDir groupProperty JoinPackages parentPkg api.Service.Groups importSet
  let imports := KeysStr importSet
  let imports := sortStrings imports
  let projectSection := stringsJoin imports (ascii "\n\t")
  let depSection := ascii "\"" ++ ProjectOpenSourceURL ++ ascii "/rest\""
  projectSection ++ ascii "\n\n\t" ++ depSection

/-! ## `genRoutes` -/

/-- The constant `routesTemplate`. -/
def routesTemplate : Str :=
  ascii ("// Code generated by goctl. DO NOT EDIT.\npackage handler\n\n" ++
    "import (\x7b\x7bif .useGin\x7d\x7d\x7b\x7belse\x7d\x7d\n\t\"net/http\"\x7b\x7bend\x7d\x7d" ++
    "\x7b\x7bif .hasTimeout\x7d\x7d\n\t\"time\"\x7b\x7bend\x7d\x7d\n\n" ++
    "\t\x7b\x7b.importPackages\x7d\x7d\n)\n\n" ++
    "func RegisterHandlers(server *rest.\x7b\x7bif .useGin\x7d\x7dGinServer\x7b\x7belse\x7d\x7d" ++
    "Server\x7b\x7bend\x7d\x7d, serverCtx *svc.ServiceContext) \x7b\n" ++
    "\t\x7b\x7b.routesAdditions\x7d\x7d\n\x7d\n")

/-- The struct `fileGenConfig` handed to the file writer `genFile`. -/
structure fileGenConfig where
  dir : Str
  subdir : Str
  filename : Str
  templateName : Str
  category : Str
  templateFile : Str
  builtinTemplate : Str
  data : Data

/-- The fields of `config.Config` the generator reads. -/
structure Config where
  NamingFormat : Str
deriving DecidableEq, Repr

/-- What `genRoutes` takes from the rest of the repository and from the operating system;
`σ` is the state of the file system.  `LoadTemplate` only reads the file system and hands
the template over parsed. -/
structure Env (σ : Type) where
  groupProperty : Str
  routePrefixKey : Str
  contextDir : Str
  handlerDir : Str
  category : Str
  routesTemplateFile : Str
  routesAdditionTemplateFile : Str
  ProjectOpenSourceURL : Str
  getHandlerName : Route → Str
  JoinPackages : List Str → Str
  KeysStr : List Str → List Str
  parseDuration : Str → Option Int
  LoadTemplate : σ → Str → Str → Template → Except GenError Template
  FileNamingFormat : Str → Str → Except GenError Str
  osRemove : Str → σ → σ
  genFile : fileGenConfig → σ → Option GenError × σ

/-- The function `genRoutes`: the error it returns and the file system it leaves. -/
def genRoutes {σ : Type} (env : Env σ) (fs : σ) (dir rootPkg : Str) (cfg : Config)
    (api : ApiSpec) (useGin : Bool) : Option GenError × σ :=
  match getRoutes env.groupProperty env.routePrefixKey env.getHandlerName api useGin with
  | .error err => (some err, fs)
  | .ok groups =>
    match env.LoadTemplate fs env.category env.routesAdditionTemplateFile
        routesAdditionTemplate with
    | .error err => (some err, fs)
    | .ok templateText =>
      let r :=
        if useGin then genGinRoutes [] groups templateText
        else genCommonRoutes env.parseDuration [] groups templateText
      match r.err with
      | some err => (some err, fs)
      | none =>
        match env.FileNamingFormat cfg.NamingFormat (ascii "routes") with
        | .error err => (some err, fs)
        | .ok routeFilename =>
          let routeFilename := routeFilename ++ ascii ".go"
          let filename := pathJoin [dir, env.handlerDir, routeFilename]
          let fs := env.osRemove filename fs
          env.genFile
            { dir := dir,
              subdir := env.handlerDir,
              filename := routeFilename,
              templateName := ascii "routesTemplate",
              category := env.category,
              templateFile := env.routesTemplateFile,
              builtinTemplate := routesTemplate,
              data :=
                { entries :=
                    [ ("hasTimeout", .bool r.hasTimeout),
                      ("importPackages",
                        .str (genRouteImports env.contextDir env.handlerDir env.groupProperty
                          env.ProjectOpenSourceURL env.JoinPackages env.KeysStr rootPkg api)),
                      ("routesAdditions", .str (TrimSpace r.builder)),
                      ("useGin", .bool useGin) ],
                  missing := .noValue } }
            fs

/-! ## Sample inputs -/

/-- The units of `time.ParseDuration`, in nanoseconds (the two spellings of the micro sign
left out). -/
def unitMap : List (Str × Nat) :=
  [ (ascii "ns", 1), (ascii "us", 1000), (ascii "ms", 1000000), (ascii "s", 1000000000),
    (ascii "m", 60000000000), (ascii "h", 3600000000000) ]

/-- The value of a string of decimal digits. -/
def digitsValue (s : Str) : Nat := s.foldl (fun v c => 10 * v + (c.toNat - 0x30)) 0

/-- A duration parser for the examples: `time.ParseDuration` on texts that are one unsigned
decimal integer followed by a unit, with the result in the range of `int64`; every other
text is rejected here. -/
def parseSimpleDuration (s : Str) : Option Int :=
  let digits := s.takeWhile (fun c => 0x30 ≤ c && c ≤ 0x39)
  let unit := s.dropWhile (fun c => 0x30 ≤ c && c ≤ 0x39)
  if digits = [] then none
  else
    match unitMap.lookup unit with
    | none => none
    | some u =>
      if digitsValue digits * u < 2 ^ 63 then some (Int.ofNat (digitsValue digits * u))
      else none

/-- A group with every policy set. -/
def sampleGroup : group :=
  { routes := [⟨ascii "http.MethodGet", ascii "/ping", ascii "pingHandler(serverCtx)"⟩],
    jwtEnabled := true,
    signatureEnabled := true,
    authName := ascii "Auth",
    timeout := ascii "500ms",
    middlewares := [],
    pathPrefix := ascii "/v1",
    jwtTrans := ascii "Trans" }

/-- A file system for the examples: the files, as pairs of a path and a content. -/
abbrev SampleFiles := List (Str × Str)

/-- Collaborators for the examples: no template override on disk, names kept as they are,
a writer that stores the rendered data under the target path, and the constants of the
package. -/
def sampleEnv : Env SampleFiles :=
  { groupProperty := ascii "group",
    routePrefixKey := ascii "prefix",
    contextDir := ascii "internal/svc",
    handlerDir := ascii "internal/handler",
    category := ascii "api",
    routesTemplateFile := ascii "routes.tpl",
    routesAdditionTemplateFile := ascii "route-addition.tpl",
    ProjectOpenSourceURL := ascii "github.com/hduhelp/go-zero",
    getHandlerName := fun r => r.Handler ++ ascii "Handler",
    JoinPackages := fun pkgs => stringsJoin pkgs (ascii "/"),
    KeysStr := fun keys => keys.reverse,
    parseDuration := parseSimpleDuration,
    LoadTemplate := fun _ _ _ builtin => .ok builtin,
    FileNamingFormat := fun _ content => .ok content,
    osRemove := fun name fs => fs.filter (fun f => f.1 != name),
    genFile := fun c fs =>
      (none, (pathJoin [c.dir, c.subdir, c.filename], (c.data.field "routesAdditions").print)
        :: fs) }

/-- A specification with one group whose timeout is `1ns`. -/
def sampleApiTooSmall : ApiSpec :=
  { Service :=
      { Groups :=
          [ { Annotation := { Properties := [(ascii "timeout", ascii "1ns")] },
              Routes :=
                [ { AtServerAnnotation := { Properties := [] },
                    Method := ascii "get",
                    Path := ascii "/ping",
                    Handler := ascii "ping" } ] } ] } }

/-- A file system that holds a route-registration file written earlier. -/
def sampleFiles : SampleFiles :=
  [(ascii "app/internal/handler/routes.go", ascii "// Code generated by goctl.")]

/-! ## Cleaned rooted paths -/

/-- A real path element: not empty, without `/`, and neither `.` nor `..`. -/
def IsElement (c : Str) : Prop := c ≠ [] ∧ slash ∉ c ∧ c ≠ [dot] ∧ c ≠ [dot, dot]

/-- The elements `cs`, each one after a `/`. -/
def slashed (cs : List Str) : Str := (cs.map (fun c => slash :: c)).flatten

/-- The rooted path with the elements `cs`: `/` when there is none. -/
def rootedPath (cs : List Str) : Str := if cs = [] then [slash] else slashed cs

/-- The buffer of `path.Clean`, last byte first, that holds the rooted path whose elements
are `st`, last element first. -/
def rootedBuffer (st : List Str) : Str :=
  if st = [] then [slash] else (st.map (fun c => c.reverse ++ [slash])).flatten

/-- The text ends with a white-space code point. -/
def endsWithSpace (s : Str) : Prop := ∃ e ∈ spaceEncodings, e <:+ s

/-- The text starts with a white-space code point. -/
def startsWithSpace (s : Str) : Prop := ∃ e ∈ spaceEncodings, e <+: s

/-- The text contains a white-space code point. -/
def containsSpace (s : Str) : Prop := ∃ e ∈ spaceEncodings, e <:+: s

instance (s : Str) : Decidable (endsWithSpace s) := by unfold endsWithSpace; infer_instance

instance (s : Str) : Decidable (startsWithSpace s) := by unfold startsWithSpace; infer_instance

instance (s : Str) : Decidable (containsSpace s) := by unfold containsSpace; infer_instance

instance (c : Str) : Decidable (IsElement c) := by unfold IsElement; infer_instance

/-- The non-empty folders the routes of a specification resolve to (route annotation first,
else group annotation), in the order of the specification. -/
def resolvedFolders (groupProperty : Str) (api : ApiSpec) : List Str :=
  (api.Service.Groups.flatMap (fun g => g.Routes.map (importFolder groupProperty g))).filter
    (fun f => decide (f ≠ []))

/-- The import entry of the context package (line 243). -/
def contextEntry (contextDir : Str) (JoinPackages : List Str → Str) (parentPkg : Str) : Str :=
  ascii "\"" ++ JoinPackages [parentPkg, contextDir] ++ ascii "\""

/-- The import set of `genRouteImports` when its loops are over. -/
def importSet (contextDir handlerDir groupProperty : Str) (JoinPackages : List Str → Str)
    (parentPkg : Str) (api : ApiSpec) : List Str :=
  collectImports handlerDir groupProperty JoinPackages parentPkg api.Service.Groups
    (setAddStr [] (contextEntry contextDir JoinPackages parentPkg))

/-- A specification with two groups that both resolve to the sub-package `order`. -/
def sampleApiOrder : ApiSpec :=
  { Service :=
      { Groups :=
          [ { Annotation := { Properties := [(ascii "group", ascii "order")] },
              Routes :=
                [ { AtServerAnnotation := { Properties := [] },
                    Method := ascii "get",
                    Path := ascii "/orders",
                    Handler := ascii "list" },
                  { AtServerAnnotation := { Properties := [(ascii "group", ascii "billing")] },
                    Method := ascii "get",
                    Path := ascii "/bills",
                    Handler := ascii "bills" } ] },
            { Annotation := { Properties := [(ascii "group", ascii "order")] },
              Routes :=
                [ { AtServerAnnotation := { Properties := [] },
                    Method := ascii "post",
                    Path := ascii "/orders",
                    Handler := ascii "create" } ] } ] } }

/-- A specification whose two routes resolve to the folders `a/b` and `ab`. -/
def sampleApiSameAlias : ApiSpec :=
  { Service :=
      { Groups :=
          [ { Annotation := { Properties := [] },
              Routes :=
                [ { AtServerAnnotation := { Properties := [(ascii "group", ascii "a/b")] },
                    Method := ascii "get",
                    Path := ascii "/x",
                    Handler := ascii "x" },
                  { AtServerAnnotation := { Properties := [(ascii "group", ascii "ab")] },
                    Method := ascii "get",
                    Path := ascii "/y",
                    Handler := ascii "y" } ] } ] } }

/-- A group with two middleware names and no other policy. -/
def sampleGroupMiddleware : group :=
  { routes := [⟨ascii "http.MethodGet", ascii "/ping", ascii "pingHandler(serverCtx)"⟩],
    jwtEnabled := false,
    signatureEnabled := false,
    authName := [],
    timeout := [],
    middlewares := [ascii "Auth", ascii "Log"],
    pathPrefix := [],
    jwtTrans := [] }

/-- The route entries and middleware names of the sample middleware group, with every other
policy set. -/
def sampleGroupMiddlewarePolicies : group :=
  { sampleGroupMiddleware with
    jwtEnabled := true,
    signatureEnabled := true,
    authName := ascii "Auth",
    timeout := ascii "1ns",
    pathPrefix := ascii "/v1",
    jwtTrans := ascii "Trans" }

/-! ## `genMiddleware` -/

/-- Go's `strings.TrimSuffix`. -/
def TrimSuffix (s suffix : Str) : Str :=
  if suffix.isSuffixOf s then s.take (s.length - suffix.length) else s

/-- The lower-case form of an ASCII byte. -/
def asciiLower (c : UInt8) : UInt8 := if 0x41 ≤ c ∧ c ≤ 0x5A then c + 0x20 else c

/-- The title-case form of an ASCII byte, which is its upper-case form. -/
def asciiTitle (c : UInt8) : UInt8 := if 0x61 ≤ c ∧ c ≤ 0x7A then c - 0x20 else c

/-- Go's `strings.ToLower`: on a string of ASCII bytes the letters `A` to `Z` become lower
case; any other string goes through the Unicode tables, `strings.Map(unicode.ToLower, s)`,
here the parameter `unicodeLower`. -/
def ToLower (unicodeLower : Str → Str) (s : Str) : Str :=
  if s.all (fun c => c < 0x80) then s.map asciiLower else unicodeLower s

/-- The function `isSeparator` of package `strings` on an ASCII byte: everything but letters,
digits and the underscore separates words. -/
def isSeparator (c : UInt8) : Bool :=
  !((0x30 ≤ c && c ≤ 0x39) || (0x61 ≤ c && c ≤ 0x7A) || (0x41 ≤ c && c ≤ 0x5A) || c == 0x5F)

/-- The closure `strings.Title` maps over the string: a byte after a separator is title
cased; `prev` is the byte before. -/
def titleLoop (prev : UInt8) : Str → Str
  | [] => []
  | c :: s => (if isSeparator prev then asciiTitle c else c) :: titleLoop c s

/-- Go's `strings.Title`: on a string of ASCII bytes the first letter of every word becomes
upper case (`prev` starts as a space); any other string goes through the Unicode tables,
here the parameter `unicodeTitle`. -/
def Title (unicodeTitle : Str → Str) (s : Str) : Str :=
  if s.all (fun c => c < 0x80) then titleLoop 0x20 s else unicodeTitle s

/-- The variable `middlewareFilename` of `genMiddleware` (line 18). -/
def middlewareFilename (unicodeLower : Str → Str) (item : Str) : Str :=
  TrimSuffix (ToLower unicodeLower item) (ascii "middleware") ++ ascii "_middleware"

/-- The variable `name` of `genMiddleware` (line 24). -/
def middlewareName (item : Str) : Str :=
  TrimSuffix item (ascii "Middleware") ++ ascii "Middleware"

/-- What `genMiddleware` takes from the rest of the repository: the constants `middlewareDir`,
`category` and `middlewareImplementCodeFile`, the embedded file `middleware.tpl`, the
functions `getMiddleware`, `format.FileNamingFormat` and `genFile`, and the Unicode case
tables. -/
structure MiddlewareEnv (σ : Type) where
  middlewareDir : Str
  category : Str
  middlewareImplementCodeFile : Str
  middlewareImplementCode : Str
  getMiddleware : ApiSpec → List Str
  unicodeLower : Str → Str
  unicodeTitle : Str → Str
  FileNamingFormat : Str → Str → Except GenError Str
  genFile : fileGenConfig → σ → Option GenError × σ

/-- The loop of `genMiddleware` over the middleware identifiers. -/
def genMiddlewareLoop {σ : Type} (env : MiddlewareEnv σ) (dir : Str) (cfg : Config)
    (useGin : Bool) : List Str → σ → Option GenError × σ
  | [], fs => (none, fs)
  | item :: rest, fs =>
    let middlewareFilename := middlewareFilename env.unicodeLower item
    match env.FileNamingFormat cfg.NamingFormat middlewareFilename with
    | .error err => (some err, fs)
    | .ok filename =>
      let name := middlewareName item
      match env.genFile
          { dir := dir,
            subdir := env.middlewareDir,
            filename := filename ++ ascii ".go",
            templateName := ascii "contextTemplate",
            category := env.category,
            templateFile := env.middlewareImplementCodeFile,
            builtinTemplate := env.middlewareImplementCode,
            data :=
              { entries := [("name", .str (Title env.unicodeTitle name)),
                            ("useGin", .bool useGin)],
                missing := .noValue } }
          fs with
      | (some err, fs) => (some err, fs)
      | (none, fs) => genMiddlewareLoop env dir cfg useGin rest fs

/-- The function `genMiddleware`: the error it returns and the file system it leaves. -/
def genMiddleware {σ : Type} (env : MiddlewareEnv σ) (fs : σ) (dir : Str) (cfg : Config)
    (api : ApiSpec) (useGin : Bool) : Option GenError × σ :=
  genMiddlewareLoop env dir cfg useGin (env.getMiddleware api) fs

/-- Collaborators for the examples: the identifiers are the comma-separated items of the
`middleware` annotations without repetition, names are kept as they are, strings outside
ASCII are left alone, and the writer creates a file that is not there yet, with the symbol
name as its content. -/
def sampleMiddlewareEnv : MiddlewareEnv SampleFiles :=
  { middlewareDir := ascii "internal/middleware",
    category := ascii "api",
    middlewareImplementCodeFile := ascii "middleware.tpl",
    middlewareImplementCode := [],
    getMiddleware := fun api =>
      (api.Service.Groups.flatMap (fun g =>
        if (g.GetAnnotation (ascii "middleware")).length > 0 then
          splitByte 0x2C (g.GetAnnotation (ascii "middleware"))
        else [])).foldl setAddStr [],
    unicodeLower := fun s => s,
    unicodeTitle := fun s => s,
    FileNamingFormat := fun _ content => .ok content,
    genFile := fun c fs =>
      if (fs.map Prod.fst).contains (pathJoin [c.dir, c.subdir, c.filename]) then (none, fs)
      else (none, fs ++ [(pathJoin [c.dir, c.subdir, c.filename], (c.data.field "name").print)]) }

/-- A specification with one group and the given `middleware` annotation. -/
def sampleApiMiddleware (middleware : Str) : ApiSpec :=
  { Service :=
      { Groups :=
          [ { Annotation := { Properties := [(ascii "middleware", middleware)] },
              Routes := [] } ] } }

/-- A specification with one group in the sub-package `order` and one route whose handler
`état` starts with a letter of two bytes (`C3 A9`). -/
def sampleApiAccent : ApiSpec :=
  { Service :=
      { Groups :=
          [ { Annotation := { Properties := [(ascii "group", ascii "order")] },
              Routes :=
                [ { AtServerAnnotation := { Properties := [] },
                    Method := ascii "get",
                    Path := ascii "/etat",
                    Handler := [0xC3, 0xA9] ++ ascii "tat" } ] } ] } }

/-- The path elements that `path.Clean` keeps of a rooted path, last element first, given
the elements `st` kept so far and the elements still to come: an empty element and `.` are
dropped, `..` removes the element before it (nothing at the root), every other element is
kept. -/
def resolveElements (st : List Str) : List Str → List Str
  | [] => st
  | seg :: rest =>
    if seg = [] ∨ seg = [dot] then resolveElements st rest
    else if seg = [dot, dot] then resolveElements st.tail rest
    else resolveElements (seg :: st) rest

/-- The path elements of the text `t`, cut at every `/`, that survive the cleaning of the
rooted path `/t`, in order. -/
def survivingElements (t : Str) : List Str :=
  (resolveElements [] (splitByte slash t)).reverse

end Gogen

/-! # Theorems -/

namespace Gogen

/-! ## The group template and the rendering loop -/

theorem execute_common (r j s p t : Str) :
    routesAdditionTemplate.execute (commonData r j s p t) =
      ascii "\n\tserver.AddRoutes(\n\t\t" ++ r ++ ascii " " ++ j ++ s ++ ascii " " ++ p ++
        ascii " " ++ t ++ ascii "\n\t)\n" := by
  have h : ascii "\n\tserver.AddRoutes(\n\t\t" =
      ascii "\n\t" ++ ascii "server.AddRoutes(\n\t\t" := by decide
  rw [h]
  simp [Template.execute, routesAdditionTemplate, Node.exec, Leaf.exec, execLeaves, commonData,
    Data.field, List.lookup, Val.truth, Val.print]

theorem timeoutOption_error_iff (pd : Str → Option Int) (g : group) :
    (∃ e, timeoutOption pd g = .error e) ↔
      g.timeout ≠ [] ∧
        (pd g.timeout = none ∨ ∃ d, pd g.timeout = some d ∧ d < Millisecond) := by
  unfold timeoutOption
  by_cases h : g.timeout = []
  · simp [h]
  · have hl : g.timeout.length > 0 := List.length_pos.mpr h
    simp only [hl, if_true]
    cases hp : pd g.timeout with
    | none => simp [h]
    | some d =>
      by_cases hd : d < timeoutThreshold
      · have hd2 : d < Millisecond := hd
        simp [h, hd, hd2]
      · have hd2 : ¬ d < Millisecond := hd
        simp [h, hd, hd2]

theorem timeoutOption_ok_flag (pd : Str → Option Int) (g : group) (t : Str) (u : Bool)
    (h : timeoutOption pd g = .ok (t, u)) : u = decide (g.timeout ≠ []) := by
  unfold timeoutOption at h
  by_cases hn : g.timeout = []
  · simp [hn] at h
    simp [hn, h.2]
  · have hl : g.timeout.length > 0 := List.length_pos.mpr hn
    simp only [hl, if_true] at h
    cases hp : pd g.timeout with
    | none => simp [hp] at h
    | some d =>
      simp only [hp] at h
      split at h
      · cases h
      · cases h
        simp [hn]

theorem timeoutOption_accepted (pd : Str → Option Int) (g : group) (d : Int)
    (hne : g.timeout ≠ []) (hp : pd g.timeout = some d) (hd : Millisecond ≤ d) :
    timeoutOption pd g =
      .ok (ascii "rest.WithTimeout(" ++ fmtInt (Int.tdiv d Millisecond) ++
        ascii " * time.Millisecond),", true) := by
  have hl : g.timeout.length > 0 := List.length_pos.mpr hne
  have hd2 : ¬ d < timeoutThreshold := not_lt.mpr hd
  simp [timeoutOption, hl, hp, hd2]

theorem timeoutOption_empty (pd : Str → Option Int) (g : group) (h : g.timeout = []) :
    timeoutOption pd g = .ok ([], false) := by
  simp [timeoutOption, h]

theorem genCommonGroup_of_error (pd : Str → Option Int) (gt : Template) (g : group)
    (e : GenError) (h : timeoutOption pd g = .error e) : genCommonGroup pd gt g = .error e := by
  simp [genCommonGroup, h]

theorem genCommonGroup_of_ok (pd : Str → Option Int) (gt : Template) (g : group) (t : Str)
    (u : Bool) (h : timeoutOption pd g = .ok (t, u)) :
    genCommonGroup pd gt g = .ok (groupText pd gt g, decide (g.timeout ≠ []), rendered g) := by
  have hu := timeoutOption_ok_flag pd g t u h
  subst hu
  simp [genCommonGroup, h, groupText, timeoutText, rendered]

theorem genCommonLoop_accepted (pd : Str → Option Int) (gt : Template) :
    ∀ (gs : List group) (b : Str) (ht : Bool) (done : List group),
      (∀ g ∈ gs, ∀ e, timeoutOption pd g ≠ .error e) →
      genCommonLoop pd gt gs b ht done =
        ⟨ht || gs.any (fun g => decide (g.timeout ≠ [])), none,
         b ++ (gs.map (groupText pd gt)).flatten, done ++ gs.map rendered⟩ := by
  intro gs
  induction gs with
  | nil => intro b ht done _; simp [genCommonLoop]
  | cons g rest ih =>
    intro b ht done hall
    have hg := hall g (List.mem_cons_self _ _)
    cases hto : timeoutOption pd g with
    | error e => exact absurd hto (hg e)
    | ok r =>
      obtain ⟨t, u⟩ := r
      have hok := genCommonGroup_of_ok pd gt g t u hto
      simp only [genCommonLoop, hok]
      rw [ih _ _ _ (fun g1 h1 => hall g1 (List.mem_cons_of_mem _ h1))]
      simp [Bool.or_assoc]

theorem genCommonLoop_rejected (pd : Str → Option Int) (gt : Template) :
    ∀ (gs : List group) (b : Str) (ht : Bool) (done : List group),
      (∃ g ∈ gs, ∃ e, timeoutOption pd g = .error e) →
      (genCommonLoop pd gt gs b ht done).err ≠ none ∧
        (genCommonLoop pd gt gs b ht done).hasTimeout = false := by
  intro gs
  induction gs with
  | nil => intro b ht done h; simp at h
  | cons g rest ih =>
    intro b ht done hex
    cases hto : timeoutOption pd g with
    | error e =>
      simp [genCommonLoop, genCommonGroup_of_error pd gt g e hto]
    | ok r =>
      obtain ⟨t, u⟩ := r
      have hok := genCommonGroup_of_ok pd gt g t u hto
      simp only [genCommonLoop, hok]
      apply ih
      obtain ⟨g1, hmem, e, he⟩ := hex
      rcases List.mem_cons.mp hmem with rfl | hmem
      · rw [hto] at he; cases he
      · exact ⟨g1, hmem, e, he⟩

/-- A run of `genCommonRoutes` either rejects the timeout of some group or accepts them
all. -/
theorem genCommonRoutes_cases (pd : Str → Option Int) (gt : Template) (b : Str)
    (gs : List group) :
    ((∃ g ∈ gs, ∃ e, timeoutOption pd g = .error e) ∧
        (genCommonRoutes pd b gs gt).err ≠ none ∧
        (genCommonRoutes pd b gs gt).hasTimeout = false) ∨
      ((∀ g ∈ gs, ∀ e, timeoutOption pd g ≠ .error e) ∧
        genCommonRoutes pd b gs gt =
          ⟨gs.any (fun g => decide (g.timeout ≠ [])), none,
           b ++ (gs.map (groupText pd gt)).flatten, gs.map rendered⟩) := by
  by_cases h : ∃ g ∈ gs, ∃ e, timeoutOption pd g = .error e
  · exact Or.inl ⟨h, genCommonLoop_rejected pd gt gs b false [] h⟩
  · right
    have hall : ∀ g ∈ gs, ∀ e, timeoutOption pd g ≠ .error e := by
      intro g hg e he
      exact h ⟨g, hg, e, he⟩
    refine ⟨hall, ?_⟩
    have := genCommonLoop_accepted pd gt gs b false [] hall
    simpa [genCommonRoutes] using this

/-- C1: with the built-in group template `genCommonRoutes` returns an error exactly when
some group of its input has a non-empty timeout that `time.ParseDuration` rejects or that
parses to a duration strictly below one millisecond. -/
theorem genCommonRoutes_error_iff (parseDuration : Str → Option Int) (builder : Str)
    (groups : List group) :
    (genCommonRoutes parseDuration builder groups routesAdditionTemplate).err ≠ none ↔
      ∃ g ∈ groups, g.timeout ≠ [] ∧
        (parseDuration g.timeout = none ∨
          ∃ d, parseDuration g.timeout = some d ∧ d < Millisecond) := by
  rcases genCommonRoutes_cases parseDuration routesAdditionTemplate builder groups with
    ⟨hex, herr, _⟩ | ⟨hall, heq⟩
  · constructor
    · intro _
      obtain ⟨g, hg, he⟩ := hex
      exact ⟨g, hg, (timeoutOption_error_iff parseDuration g).mp he⟩
    · intro _
      exact herr
  · constructor
    · intro h
      rw [heq] at h
      exact absurd rfl h
    · rintro ⟨g, hg, hbad⟩
      obtain ⟨e, he⟩ := (timeoutOption_error_iff parseDuration g).mpr hbad
      exact absurd he (hall g hg e)

theorem jwtOption_eq (g : group) :
    jwtOption g =
      (if g.jwtEnabled then
          ascii "\n rest.WithJwt(serverCtx.Config." ++ g.authName ++ ascii ".AccessSecret),"
        else []) ++
      (if g.jwtTrans ≠ [] then
          ascii "\n rest.WithJwtTransition(serverCtx.Config." ++ g.jwtTrans ++
            ascii ".PrevSecret,serverCtx.Config." ++ g.jwtTrans ++ ascii ".Secret),"
        else []) := by
  unfold jwtOption
  by_cases h : g.jwtTrans = []
  · simp [h]
  · have hl : g.jwtTrans.length > 0 := List.length_pos.mpr h
    simp [h, hl]

theorem prefixOption_eq (g : group) :
    prefixOption g =
      (if g.pathPrefix ≠ [] then ascii "\nrest.WithPrefix(\"" ++ g.pathPrefix ++ ascii "\"),"
        else []) := by
  unfold prefixOption
  by_cases h : g.pathPrefix = []
  · simp [h]
  · have hl : g.pathPrefix.length > 0 := List.length_pos.mpr h
    simp [h, hl]

theorem timeoutText_eq (pd : Str → Option Int) (g : group)
    (h : ∀ e, timeoutOption pd g ≠ .error e) :
    timeoutText pd g =
      (if g.timeout ≠ [] then
          ascii "rest.WithTimeout(" ++
            fmtInt (Int.tdiv ((pd g.timeout).getD 0) Millisecond) ++
            ascii " * time.Millisecond),"
        else []) := by
  by_cases hn : g.timeout = []
  · simp [timeoutText, timeoutOption_empty pd g hn, hn]
  · have hl : g.timeout.length > 0 := List.length_pos.mpr hn
    cases hp : pd g.timeout with
    | none =>
      exact absurd (by simp [timeoutOption, hl, hp]) (h (.invalidDuration g.timeout))
    | some d =>
      by_cases hd : d < timeoutThreshold
      · exact absurd (by simp [timeoutOption, hl, hp, hd]) (h (.timeoutTooSmall d))
      · have hd2 : Millisecond ≤ d := not_lt.mp hd
        simp [timeoutText, timeoutOption_accepted pd g d hn hp hd2, hn]

theorem digitChar_byte (k : Nat) (h : k < 10) :
    (0x30 ≤ UInt8.ofNat (Nat.digitChar k).toNat ∧ UInt8.ofNat (Nat.digitChar k).toNat ≤ 0x39) ∧
      (UInt8.ofNat (Nat.digitChar k).toNat).toNat - 0x30 = k := by
  interval_cases k <;> decide

theorem digitsValue_concat (s : Str) (c : UInt8) :
    digitsValue (s ++ [c]) = 10 * digitsValue s + (c.toNat - 0x30) := by
  simp [digitsValue, List.foldl_append]

theorem toDigitsCore_spec :
    ∀ (fuel n : Nat) (ds : List Char), n < fuel →
      ∃ X : List Char, Nat.toDigitsCore 10 fuel n ds = X ++ ds ∧ X ≠ [] ∧
        (∀ c ∈ X.map (fun c => UInt8.ofNat c.toNat), 0x30 ≤ c ∧ c ≤ 0x39) ∧
        digitsValue (X.map (fun c => UInt8.ofNat c.toNat)) = n ∧
        (n ≠ 0 → (X.map (fun c => UInt8.ofNat c.toNat)).head? ≠ some 0x30) := by
  intro fuel
  induction fuel with
  | zero => intro n ds h; omega
  | succ fuel ih =>
    intro n ds h
    have hmod : n % 10 < 10 := Nat.mod_lt _ (by decide)
    obtain ⟨hdig, hval⟩ := digitChar_byte (n % 10) hmod
    rw [Nat.toDigitsCore]
    by_cases h0 : n / 10 = 0
    · simp only [h0, if_true]
      have hn : n % 10 = n := by omega
      refine ⟨[Nat.digitChar (n % 10)], rfl, by simp, ?_, ?_, ?_⟩
      · intro c hc
        simp only [List.map_cons, List.map_nil, List.mem_singleton] at hc
        rw [hc]; exact hdig
      · simp only [List.map_cons, List.map_nil]
        have := digitsValue_concat [] (UInt8.ofNat (Nat.digitChar (n % 10)).toNat)
        simp only [List.nil_append] at this
        rw [this, hval]
        simp [digitsValue, hn]
      · intro hne hhead
        simp only [List.map_cons, List.map_nil, List.head?_cons, Option.some.injEq] at hhead
        rw [hhead] at hval
        have : n % 10 = 0 := by rw [← hval]; decide
        omega
    · simp only [h0, if_false]
      obtain ⟨X, hX, hne, hall, hv, hhead⟩ := ih (n / 10) (Nat.digitChar (n % 10) :: ds) (by omega)
      refine ⟨X ++ [Nat.digitChar (n % 10)], by rw [hX]; simp, by simp, ?_, ?_, ?_⟩
      · intro c hc
        simp only [List.map_append, List.map_cons, List.map_nil, List.mem_append,
          List.mem_singleton] at hc
        rcases hc with hc | hc
        · exact hall c hc
        · rw [hc]; exact hdig
      · simp only [List.map_append, List.map_cons, List.map_nil]
        rw [digitsValue_concat, hv, hval]
        omega
      · intro _
        obtain ⟨x, xs, rfl⟩ := List.exists_cons_of_ne_nil hne
        have := hhead h0
        simpa using this

/-- The verb `%d` writes the decimal digits of the number: digits only, no leading zero
except for zero itself, and their value is the number. -/
theorem fmtNat_spec (n : Nat) :
    fmtNat n ≠ [] ∧ (∀ c ∈ fmtNat n, 0x30 ≤ c ∧ c ≤ 0x39) ∧ digitsValue (fmtNat n) = n ∧
      (n ≠ 0 → (fmtNat n).head? ≠ some 0x30) := by
  obtain ⟨X, hX, hne, hall, hv, hhead⟩ := toDigitsCore_spec (n + 1) n [] (Nat.lt_succ_self n)
  have hf : fmtNat n = X.map (fun c => UInt8.ofNat c.toNat) := by
    simp [fmtNat, Nat.toDigits, hX]
  rw [hf]
  exact ⟨by simpa using hne, hall, hv, hhead⟩

/-- C2: a group whose timeout parses to a duration `d` of at least one millisecond gets the
timeout option `rest.WithTimeout(N * time.Millisecond),` where `N`, written in decimal
digits without a leading zero, is the number of whole milliseconds of `d` (`N ≥ 1`,
`N * 1ms ≤ d < (N + 1) * 1ms`), and this option is what `genCommonRoutes` writes into the
timeout place of that group; for a duration of 500ms `N` is 500. -/
theorem genCommonRoutes_timeout_option (parseDuration : Str → Option Int) (builder : Str)
    (before after : List group) (g : group) (d : Int)
    (hne : g.timeout ≠ []) (hp : parseDuration g.timeout = some d) (hd : Millisecond ≤ d)
    (hok : (genCommonRoutes parseDuration builder (before ++ g :: after)
      routesAdditionTemplate).err = none) :
    (∃ (N : Nat) (digits : Str),
      1 ≤ N ∧ (N : Int) * Millisecond ≤ d ∧ d < ((N : Int) + 1) * Millisecond ∧
      (N : Int) = Int.tdiv d Millisecond ∧
      digits ≠ [] ∧ (∀ c ∈ digits, 0x30 ≤ c ∧ c ≤ 0x39) ∧ digits.head? ≠ some 0x30 ∧
      digitsValue digits = N ∧
      timeoutOption parseDuration g =
        .ok (ascii "rest.WithTimeout(" ++ digits ++ ascii " * time.Millisecond),", true) ∧
      (genCommonRoutes parseDuration builder (before ++ g :: after)
          routesAdditionTemplate).builder =
        builder ++ (before.map (groupText parseDuration routesAdditionTemplate)).flatten ++
          (ascii "\n\tserver.AddRoutes(\n\t\t" ++ (routesText g).1 ++ ascii " " ++
            jwtOption g ++ signatureOption g ++ ascii " " ++ prefixOption g ++ ascii " " ++
            (ascii "rest.WithTimeout(" ++ digits ++ ascii " * time.Millisecond),") ++
            ascii "\n\t)\n") ++
          (after.map (groupText parseDuration routesAdditionTemplate)).flatten) ∧
    (d = 500000000 →
      timeoutText parseDuration g = ascii "rest.WithTimeout(500 * time.Millisecond),") := by
  have hopt := timeoutOption_accepted parseDuration g d hne hp hd
  have hms : Millisecond = 1000000 := rfl
  have hd0 : 0 ≤ d := by rw [hms] at hd; omega
  have hpos : (0 : Int) < Millisecond := by rw [hms]; decide
  have htd : Int.tdiv d Millisecond = d / Millisecond := Int.tdiv_eq_ediv hd0 (le_of_lt hpos)
  have h1 : 1 ≤ Int.tdiv d Millisecond := by
    rw [htd]
    exact (Int.le_ediv_iff_mul_le hpos).mpr (by simpa using hd)
  have h2 : Int.tdiv d Millisecond * Millisecond ≤ d := by
    rw [htd]
    exact Int.ediv_mul_le d (ne_of_gt hpos)
  have h3 : d < (Int.tdiv d Millisecond + 1) * Millisecond := by
    rw [htd]
    exact Int.lt_ediv_add_one_mul_self d hpos
  obtain ⟨N, hN⟩ : ∃ N : Nat, Int.tdiv d Millisecond = (N : Int) :=
    ⟨(Int.tdiv d Millisecond).toNat, (Int.toNat_of_nonneg (by omega)).symm⟩
  have hfmt : fmtInt (Int.tdiv d Millisecond) = fmtNat N := by rw [hN]; rfl
  rw [hfmt] at hopt
  obtain ⟨hnil, hdigits, hvalue, hhead⟩ := fmtNat_spec N
  have hN1 : 1 ≤ N := by omega
  constructor
  · refine ⟨N, fmtNat N, hN1, by rw [← hN]; exact h2, by rw [← hN]; exact h3, hN.symm, hnil,
      hdigits, hhead (by omega), hvalue, hopt, ?_⟩
    rcases genCommonRoutes_cases parseDuration routesAdditionTemplate builder
      (before ++ g :: after) with ⟨_, herr, _⟩ | ⟨_, heq⟩
    · exact absurd hok herr
    · rw [heq]
      have hg : groupText parseDuration routesAdditionTemplate g =
          ascii "\n\tserver.AddRoutes(\n\t\t" ++ (routesText g).1 ++ ascii " " ++
            jwtOption g ++ signatureOption g ++ ascii " " ++ prefixOption g ++ ascii " " ++
            (ascii "rest.WithTimeout(" ++ fmtNat N ++ ascii " * time.Millisecond),") ++
            ascii "\n\t)\n" := by
        simp only [groupText, execute_common, timeoutText, hopt]
      simp only [List.map_append, List.map_cons, List.flatten_append, List.flatten_cons, hg,
        List.append_assoc]
  · intro h500
    subst h500
    have hopt2 := timeoutOption_accepted parseDuration g 500000000 hne hp hd
    simp only [timeoutText, hopt2]
    decide

/-- An instance: the sample group, whose timeout is `500ms`, gets the option
`rest.WithTimeout(500 * time.Millisecond),`. -/
theorem genCommonRoutes_timeout_option_witness :
    sampleGroup.timeout ≠ [] ∧
      parseSimpleDuration sampleGroup.timeout = some 500000000 ∧
      timeoutText parseSimpleDuration sampleGroup =
        ascii "rest.WithTimeout(500 * time.Millisecond)," :=
  ⟨by decide, by decide,
    (genCommonRoutes_timeout_option parseSimpleDuration [] [] [] sampleGroup 500000000
      (by decide) (by decide) (by decide) (by decide)).2 rfl⟩

/-- C10: with the built-in group template the text `genCommonRoutes` writes for a group is
the route sequence followed by the JWT option, the JWT-transition option, the signature
option, the prefix option and the timeout option, in this order, each present exactly when
its policy is set. -/
theorem genCommonRoutes_option_order (parseDuration : Str → Option Int) (builder : Str)
    (groups : List group)
    (hok : (genCommonRoutes parseDuration builder groups routesAdditionTemplate).err = none) :
    (genCommonRoutes parseDuration builder groups routesAdditionTemplate).builder =
      builder ++ (groups.map (fun g =>
        ascii "\n\tserver.AddRoutes(\n\t\t" ++ (routesText g).1 ++ ascii " " ++
          (if g.jwtEnabled then
              ascii "\n rest.WithJwt(serverCtx.Config." ++ g.authName ++
                ascii ".AccessSecret),"
            else []) ++
          (if g.jwtTrans ≠ [] then
              ascii "\n rest.WithJwtTransition(serverCtx.Config." ++ g.jwtTrans ++
                ascii ".PrevSecret,serverCtx.Config." ++ g.jwtTrans ++ ascii ".Secret),"
            else []) ++
          (if g.signatureEnabled then ascii "\n rest.WithSignature(serverCtx.Config.Signature),"
            else []) ++
          ascii " " ++
          (if g.pathPrefix ≠ [] then
              ascii "\nrest.WithPrefix(\"" ++ g.pathPrefix ++ ascii "\"),"
            else []) ++
          ascii " " ++
          (if g.timeout ≠ [] then
              ascii "rest.WithTimeout(" ++
                fmtInt (Int.tdiv ((parseDuration g.timeout).getD 0) Millisecond) ++
                ascii " * time.Millisecond),"
            else []) ++
          ascii "\n\t)\n")).flatten := by
  rcases genCommonRoutes_cases parseDuration routesAdditionTemplate builder groups with
    ⟨_, herr, _⟩ | ⟨hall, heq⟩
  · exact absurd hok herr
  · rw [heq]
    simp only
    congr 2
    apply List.map_congr_left
    intro g hg
    simp only [groupText, execute_common, jwtOption_eq, prefixOption_eq,
      timeoutText_eq parseDuration g (hall g hg), signatureOption, List.append_assoc]

set_option maxRecDepth 20000 in
/-- An instance: the text written for the sample group. -/
theorem genCommonRoutes_option_order_witness :
    (genCommonRoutes parseSimpleDuration [] [sampleGroup] routesAdditionTemplate).err = none ∧
      (genCommonRoutes parseSimpleDuration [] [sampleGroup] routesAdditionTemplate).builder =
        ascii ("\n\tserver.AddRoutes(\n\t\t[]rest.Route\x7b\n\t\t\x7b\n\t\t\tMethod:  http.MethodGet,\n\t\t\tPath:    \"/ping\",\n\t\t\tHandler: pingHandler(serverCtx),\n\t\t\x7d,\n\x7d, " ++
          "\n rest.WithJwt(serverCtx.Config.Auth.AccessSecret)," ++
          "\n rest.WithJwtTransition(serverCtx.Config.Trans.PrevSecret,serverCtx.Config.Trans.Secret)," ++
          "\n rest.WithSignature(serverCtx.Config.Signature), " ++
          "\nrest.WithPrefix(\"/v1\"), rest.WithTimeout(500 * time.Millisecond),\n\t)\n") :=
  ⟨by decide,
    (genCommonRoutes_option_order parseSimpleDuration [] [sampleGroup] (by decide)).trans
      (by decide)⟩

/-! ## `getRoutes` -/

theorem foldl_append_singleton {α β : Type} (f : α → β) (l : List α) (init : List β) :
    l.foldl (fun acc x => acc ++ [f x]) init = init ++ l.map f := by
  induction l generalizing init with
  | nil => simp
  | cons a l ih => simp [ih]

theorem groupIR_routes (gp rpk : Str) (ghn : Route → Str) (useGin : Bool) (g : Group) :
    (groupIR gp rpk ghn useGin g).routes = g.Routes.map (routeEntry gp ghn useGin g) := by
  simp [groupIR, foldl_append_singleton]

theorem getRoutes_eq (gp rpk : Str) (ghn : Route → Str) (api : ApiSpec) (useGin : Bool) :
    getRoutes gp rpk ghn api useGin = .ok (api.Service.Groups.map (groupIR gp rpk ghn useGin)) := by
  simp [getRoutes, foldl_append_singleton]

/-- In `getRoutes` the handler reference of every route is resolved with route-level
precedence: the alias of the route's own sub-group folder when that annotation is not empty,
else the alias of the group's folder when that is not empty, in both cases followed by `.`
and the handler call with `strings.ToUpper` applied to its first byte, else the raw handler
call; the alias of a folder is the folder without its `/` bytes. -/
theorem getRoutes_handler_precedence (groupProperty routePrefixKey : Str)
    (getHandlerName : Route → Str) (api : ApiSpec) (useGin : Bool) :
    (∃ groups,
      getRoutes groupProperty routePrefixKey getHandlerName api useGin = .ok groups ∧
      groups.map (fun g => g.routes.map (fun r => r.handler)) =
        api.Service.Groups.map (fun g => g.Routes.map (fun r =>
          if r.GetAnnotation groupProperty ≠ [] then
            (r.GetAnnotation groupProperty).filter (fun c => c != slash) ++ ascii "." ++
              upperFirst (getHandlerName r ++ ascii "(serverCtx)")
          else if g.GetAnnotation groupProperty ≠ [] then
            (g.GetAnnotation groupProperty).filter (fun c => c != slash) ++ ascii "." ++
              upperFirst (getHandlerName r ++ ascii "(serverCtx)")
          else getHandlerName r ++ ascii "(serverCtx)"))) ∧
    (∀ (c : UInt8) (rest : Str),
      upperFirst (c :: rest) =
        if c < 0x80 then (if 0x61 ≤ c ∧ c ≤ 0x7A then c - 0x20 else c) :: rest
        else 0xEF :: 0xBF :: 0xBD :: rest) := by
  constructor
  · refine ⟨_, getRoutes_eq _ _ _ _ _, ?_⟩
    rw [List.map_map]
    apply List.map_congr_left
    intro g _
    simp only [Function.comp, groupIR_routes, List.map_map]
    apply List.map_congr_left
    intro r _
    show (routeEntry groupProperty getHandlerName useGin g r).handler = _
    simp only [routeEntry, handlerRef, toPrefix, removeByte]
    by_cases h1 : r.GetAnnotation groupProperty = []
    · by_cases h2 : g.GetAnnotation groupProperty = []
      · simp [h1, h2]
      · have hl : (g.GetAnnotation groupProperty).length > 0 := List.length_pos.mpr h2
        simp [h1, h2, hl]
    · have hl : (r.GetAnnotation groupProperty).length > 0 := List.length_pos.mpr h1
      simp [h1, hl]
  · intro c rest
    simp only [upperFirst, toUpperByte]
    split
    · split <;> simp
    · simp

/-- C4, where the code departs from it: `handler[:1]` is the first byte of the handler call,
not its first character. For the handler `état` in the sub-package `order` the generated reference is
`order.` followed by the bytes `EF BF BD A9` and `tatHandler(serverCtx)`: the first byte of
`é` has become U+FFFD and its second byte is left behind, where the claim has the call with
its first character upper-cased, `order.ÉtatHandler(serverCtx)`. -/
theorem getRoutes_handler_multibyte :
    (getRoutes (ascii "group") (ascii "prefix") (fun r => r.Handler ++ ascii "Handler")
        sampleApiAccent false).toOption.map (fun groups =>
          groups.map (fun g => g.routes.map (fun r => r.handler))) =
      some [[ascii "order." ++ [0xEF, 0xBF, 0xBD, 0xA9] ++ ascii "tatHandler(serverCtx)"]] ∧
    ascii "order." ++ [0xEF, 0xBF, 0xBD, 0xA9] ++ ascii "tatHandler(serverCtx)" ≠
      ascii "order." ++ [0xC3, 0x89] ++ ascii "tatHandler(serverCtx)" ∧
    upperFirst ([0xC3, 0xA9] ++ ascii "tatHandler(serverCtx)") =
      [0xEF, 0xBF, 0xBD, 0xA9] ++ ascii "tatHandler(serverCtx)" := by
  refine ⟨by decide, by decide, by decide⟩

/-! ## `genRoutes` -/

theorem groupIR_timeout (gp rpk : Str) (ghn : Route → Str) (useGin : Bool) (g : Group) :
    (groupIR gp rpk ghn useGin g).timeout = g.GetAnnotation (ascii "timeout") := by
  simp [groupIR]

/-- C3: when `genRoutes` runs in the minimal flavor on a specification in which some group
has a timeout below one millisecond it returns an error and leaves the file system as it
was: no file is removed and the writer is not called. -/
theorem genRoutes_small_timeout_keeps_files {σ : Type} (env : Env σ) (fs : σ)
    (dir rootPkg : Str) (cfg : Config) (api : ApiSpec)
    (h : ∃ g ∈ api.Service.Groups, g.GetAnnotation (ascii "timeout") ≠ [] ∧
      ∃ d, env.parseDuration (g.GetAnnotation (ascii "timeout")) = some d ∧ d < Millisecond) :
    (genRoutes env fs dir rootPkg cfg api false).1 ≠ none ∧
      (genRoutes env fs dir rootPkg cfg api false).2 = fs := by
  obtain ⟨g, hg, hne, d, hp, hd⟩ := h
  simp only [genRoutes, getRoutes_eq]
  cases hl : env.LoadTemplate fs env.category env.routesAdditionTemplateFile
      routesAdditionTemplate with
  | error err => simp
  | ok templateText =>
    simp only [Bool.false_eq_true, if_false]
    have hbad : ∃ g1 ∈ api.Service.Groups.map
        (groupIR env.groupProperty env.routePrefixKey env.getHandlerName false),
        ∃ e, timeoutOption env.parseDuration g1 = .error e := by
      refine ⟨groupIR env.groupProperty env.routePrefixKey env.getHandlerName false g,
        List.mem_map_of_mem _ hg, ?_⟩
      apply (timeoutOption_error_iff _ _).mpr
      rw [groupIR_timeout]
      exact ⟨hne, Or.inr ⟨d, hp, hd⟩⟩
    rcases genCommonRoutes_cases env.parseDuration templateText []
      (api.Service.Groups.map
        (groupIR env.groupProperty env.routePrefixKey env.getHandlerName false)) with
      ⟨_, herr, _⟩ | ⟨hall, _⟩
    · cases he : (genCommonRoutes env.parseDuration []
          (api.Service.Groups.map
            (groupIR env.groupProperty env.routePrefixKey env.getHandlerName false))
          templateText).err with
      | none => exact absurd he herr
      | some e => simp
    · obtain ⟨g1, hg1, e, he⟩ := hbad
      exact absurd he (hall g1 hg1 e)

/-- An instance: with a timeout of `1ns` generation
fails with the error for a duration of one nanosecond and the file written earlier is still
there. -/
theorem genRoutes_small_timeout_keeps_files_witness :
    genRoutes sampleEnv sampleFiles (ascii "app") (ascii "example.com/app") ⟨ascii "gozero"⟩
        sampleApiTooSmall false = (some (.timeoutTooSmall 1), sampleFiles) ∧
      (genRoutes sampleEnv sampleFiles (ascii "app") (ascii "example.com/app") ⟨ascii "gozero"⟩
          sampleApiTooSmall false).1 ≠ none ∧
      (genRoutes sampleEnv sampleFiles (ascii "app") (ascii "example.com/app") ⟨ascii "gozero"⟩
          sampleApiTooSmall false).2 = sampleFiles :=
  ⟨by decide,
    genRoutes_small_timeout_keeps_files sampleEnv sampleFiles (ascii "app")
      (ascii "example.com/app") ⟨ascii "gozero"⟩ sampleApiTooSmall
      ⟨_, List.mem_cons_self _ _, by decide, 1, by decide, by decide⟩⟩

/-! ## `path.Clean` on rooted paths -/

theorem rootedBuffer_nil : rootedBuffer [] = [slash] := rfl

theorem rootedBuffer_cons (c : Str) (st : List Str) :
    rootedBuffer (c :: st) = c.reverse ++ slash :: (if st = [] then [] else rootedBuffer st) := by
  cases st with
  | nil => simp [rootedBuffer]
  | cons d st => simp [rootedBuffer]

theorem rootedBuffer_length_eq_one (st : List Str) (h : ∀ e ∈ st, e ≠ []) :
    (rootedBuffer st).length = 1 ↔ st = [] := by
  cases st with
  | nil => simp [rootedBuffer]
  | cons c st =>
    have hc : c ≠ [] := h c (List.mem_cons_self _ _)
    have hl : 0 < c.length := List.length_pos.mpr hc
    rw [rootedBuffer_cons]
    simp only [List.length_append, List.length_reverse, List.length_cons]
    constructor
    · intro h1; omega
    · intro h1; cases h1

theorem rootedBuffer_push (c : Str) (st : List Str) (h : ∀ e ∈ st, e ≠ []) :
    c.reverse ++
        (if (true && (rootedBuffer st).length != 1) || (!true && (rootedBuffer st).length != 0)
          then slash :: rootedBuffer st else rootedBuffer st) =
      rootedBuffer (c :: st) := by
  rw [rootedBuffer_cons]
  by_cases hst : st = []
  · subst hst
    simp [rootedBuffer]
  · have h1 : (rootedBuffer st).length ≠ 1 := fun h1 =>
      hst ((rootedBuffer_length_eq_one st h).mp h1)
    simp [hst, h1]

theorem backtrackLoop_pop (xs tl : Str) (top : UInt8) (htop : top ≠ slash)
    (hxs : slash ∉ xs) :
    backtrackLoop 1 (xs ++ slash :: tl) top = if tl = [] then [slash] else tl := by
  induction xs generalizing top with
  | nil =>
    cases tl with
    | nil => simp [backtrackLoop]
    | cons y r => simp [backtrackLoop, htop]
  | cons x xs ih =>
    have hx : x ≠ slash := fun h => hxs (by simp [h])
    have hxs2 : slash ∉ xs := fun h => hxs (List.mem_cons_of_mem _ h)
    have hlen : (x :: (xs ++ slash :: tl)).length > 1 := by simp
    show backtrackLoop 1 (x :: (xs ++ slash :: tl)) top = _
    rw [backtrackLoop, if_pos ⟨hlen, htop⟩]
    exact ih x hx hxs2

theorem backtrack_rootedBuffer (c : Str) (st : List Str) (hc : c ≠ []) (hs : slash ∉ c) :
    backtrack 1 (rootedBuffer (c :: st)) = rootedBuffer st := by
  rw [rootedBuffer_cons]
  have hr : c.reverse ≠ [] := by simpa using hc
  obtain ⟨x, xs, hx⟩ := List.exists_cons_of_ne_nil hr
  have hmem : ∀ y ∈ c.reverse, y ≠ slash := by
    intro y hy h
    subst h
    exact hs (List.mem_reverse.mp hy)
  rw [hx] at hmem
  rw [hx]
  simp only [List.cons_append, backtrack]
  rw [backtrackLoop_pop xs _ x (hmem x (List.mem_cons_self _ _))
    (fun h => hmem slash (List.mem_cons_of_mem _ h) rfl)]
  by_cases hst : st = []
  · simp [hst, rootedBuffer]
  · have : rootedBuffer st ≠ [] := by
      obtain ⟨d, st2, rfl⟩ := List.exists_cons_of_ne_nil hst
      rw [rootedBuffer_cons]
      simp
    simp [hst, this]

theorem takeWhile_cons_notSlash (y : UInt8) (t : Str) (hy : y ≠ slash) :
    (y :: t).takeWhile (fun b => b != slash) = y :: t.takeWhile (fun b => b != slash) := by
  rw [List.takeWhile_cons]
  simp [hy]

theorem dropWhile_cons_notSlash (y : UInt8) (t : Str) (hy : y ≠ slash) :
    (y :: t).dropWhile (fun b => b != slash) = t.dropWhile (fun b => b != slash) := by
  rw [List.dropWhile_cons]
  simp [hy]

theorem takeWhile_notSlash_nil (t : Str)
    (h : t.takeWhile (fun b => b != slash) = []) : t = [] ∨ t.head? = some slash := by
  cases t with
  | nil => exact Or.inl rfl
  | cons y t =>
    right
    by_cases hy : y = slash
    · simp [hy]
    · rw [takeWhile_cons_notSlash y t hy] at h
      cases h

theorem element_takeWhile (c : UInt8) (t : Str) (hc : c ≠ slash)
    (h2 : ¬ (c = dot ∧ (t = [] ∨ t.head? = some slash)))
    (h3 : ¬ (c = dot ∧ t.head? = some dot ∧
      (t.drop 1 = [] ∨ (t.drop 1).head? = some slash))) :
    IsElement ((c :: t).takeWhile (fun b => b != slash)) := by
  have hcons : (c :: t).takeWhile (fun b => b != slash) =
      c :: t.takeWhile (fun b => b != slash) := takeWhile_cons_notSlash c t hc
  rw [hcons]
  refine ⟨by simp, ?_, ?_, ?_⟩
  · intro hmem
    rcases List.mem_cons.mp hmem with h | h
    · exact hc h.symm
    · have := List.mem_takeWhile_imp h
      simp at this
  · intro h
    injection h with h1 h4
    exact h2 ⟨h1, takeWhile_notSlash_nil t h4⟩
  · intro h
    injection h with h1 h4
    cases t with
    | nil => simp at h4
    | cons y t =>
      by_cases hy : y = slash
      · rw [List.takeWhile_cons] at h4
        simp [hy] at h4
      · have h5 : (y :: t).takeWhile (fun b => b != slash) =
            y :: t.takeWhile (fun b => b != slash) := takeWhile_cons_notSlash y t hy
        rw [h5] at h4
        injection h4 with h6 h7
        exact h3 ⟨h1, by simp [h6], by simpa using takeWhile_notSlash_nil t h7⟩

/-- The loop of `path.Clean` on a rooted path keeps the buffer a cleaned rooted path, and
every byte of its elements comes from the elements before or from the input. -/
theorem cleanLoop_rooted_invariant (P : UInt8 → Prop) :
    ∀ (fuel : Nat) (rest : Str) (st : List Str),
      (∀ x ∈ rest, P x) → (∀ e ∈ st, IsElement e ∧ ∀ x ∈ e, P x) →
      ∃ st1, (∀ e ∈ st1, IsElement e ∧ ∀ x ∈ e, P x) ∧
        cleanLoop true fuel rest (rootedBuffer st) 1 = rootedBuffer st1 := by
  intro fuel
  induction fuel with
  | zero => intro rest st _ hst; exact ⟨st, hst, by simp [cleanLoop]⟩
  | succ fuel ih =>
    intro rest st hrest hst
    cases rest with
    | nil => exact ⟨st, hst, by simp [cleanLoop]⟩
    | cons c t =>
      have ht : ∀ x ∈ t, P x := fun x hx => hrest x (List.mem_cons_of_mem _ hx)
      have hne : ∀ e ∈ st, e ≠ [] := fun e he => (hst e he).1.1
      rw [cleanLoop]
      by_cases h1 : c = slash
      · simp only [h1, if_true]
        exact ih t st ht hst
      · simp only [h1, if_false]
        by_cases h2 : c = dot ∧ (t = [] ∨ t.head? = some slash)
        · simp only [h2, if_true]
          exact ih t st ht hst
        · simp only [h2, if_false]
          by_cases h3 : c = dot ∧ t.head? = some dot ∧
              (t.drop 1 = [] ∨ (t.drop 1).head? = some slash)
          · simp only [h3, if_true]
            have hd : ∀ x ∈ t.drop 1, P x := fun x hx => ht x (List.mem_of_mem_drop hx)
            cases st with
            | nil =>
              simp only [rootedBuffer_nil, List.length_singleton, gt_iff_lt, lt_self_iff_false,
                if_false, Bool.not_true, Bool.false_eq_true]
              exact ih (t.drop 1) [] hd hst
            | cons e st0 =>
              have he := (hst e (List.mem_cons_self _ _)).1
              have hlen : (rootedBuffer (e :: st0)).length > 1 := by
                have h0 := rootedBuffer_length_eq_one (e :: st0) hne
                have hpos : 0 < (rootedBuffer (e :: st0)).length := by
                  rw [rootedBuffer_cons]; simp
                have : (rootedBuffer (e :: st0)).length ≠ 1 := fun h => by
                  have := h0.mp h
                  cases this
                omega
              simp only [hlen, if_true]
              rw [backtrack_rootedBuffer e st0 he.1 he.2.1]
              exact ih (t.drop 1) st0 hd (fun e1 h1 => hst e1 (List.mem_cons_of_mem _ h1))
          · simp only [h3, if_false]
            have hel := element_takeWhile c t h1 h2 h3
            rw [rootedBuffer_push _ st hne]
            apply ih
            · intro x hx
              exact hrest x ((List.dropWhile_sublist _).subset hx)
            · intro e1 he1
              rcases List.mem_cons.mp he1 with rfl | he1
              · exact ⟨hel, fun x hx => hrest x ((List.takeWhile_sublist _).subset hx)⟩
              · exact hst e1 he1

theorem takeWhile_element_append (c tl : Str) (hs : slash ∉ c)
    (htl : tl = [] ∨ tl.head? = some slash) :
    (c ++ tl).takeWhile (fun b => b != slash) = c ∧
      (c ++ tl).dropWhile (fun b => b != slash) = tl := by
  induction c with
  | nil =>
    rcases htl with rfl | h
    · simp
    · cases tl with
      | nil => simp
      | cons y t =>
        have hy : y = slash := by simpa using h
        subst hy
        simp [List.takeWhile_cons, List.dropWhile_cons]
  | cons x c ih =>
    have hx : x ≠ slash := fun h => hs (by simp [h])
    have hc : slash ∉ c := fun h => hs (List.mem_cons_of_mem _ h)
    obtain ⟨h1, h2⟩ := ih hc
    rw [List.cons_append, takeWhile_cons_notSlash x _ hx, dropWhile_cons_notSlash x _ hx, h1, h2]
    exact ⟨rfl, rfl⟩

theorem cleanLoop_skip_slash (rooted : Bool) (fuel : Nat) (t out : Str) (dotdot : Nat) :
    cleanLoop rooted (fuel + 1) (slash :: t) out dotdot = cleanLoop rooted fuel t out dotdot := by
  rw [cleanLoop]
  simp

theorem cleanLoop_copy_element (fuel : Nat) (c tl : Str) (st : List Str) (hc : IsElement c)
    (htl : tl = [] ∨ tl.head? = some slash) (hst : ∀ e ∈ st, e ≠ []) :
    cleanLoop true (fuel + 1) (c ++ tl) (rootedBuffer st) 1 =
      cleanLoop true fuel tl (rootedBuffer (c :: st)) 1 := by
  obtain ⟨hne, hs, hd1, hd2⟩ := hc
  obtain ⟨c0, c1, rfl⟩ := List.exists_cons_of_ne_nil hne
  have h0 : c0 ≠ slash := fun h => hs (by simp [h])
  have hs1 : slash ∉ c1 := fun h => hs (List.mem_cons_of_mem _ h)
  have hhead : ∀ (u : Str), slash ∉ u → (u ++ tl).head? = some slash → u = [] := by
    intro u hu h
    cases u with
    | nil => rfl
    | cons y u =>
      have hy : y = slash := by simpa using h
      exact absurd (by simp [hy]) hu
  have hnil : ∀ (u : Str), u ++ tl = [] → u = [] := fun u h => (List.append_eq_nil.mp h).1
  have h2 : ¬ (c0 = dot ∧ (c1 ++ tl = [] ∨ (c1 ++ tl).head? = some slash)) := by
    rintro ⟨hc0, h | h⟩
    · exact hd1 (by rw [hc0, hnil c1 h])
    · exact hd1 (by rw [hc0, hhead c1 hs1 h])
  have h3 : ¬ (c0 = dot ∧ (c1 ++ tl).head? = some dot ∧
      ((c1 ++ tl).drop 1 = [] ∨ ((c1 ++ tl).drop 1).head? = some slash)) := by
    rintro ⟨hc0, hh, h⟩
    cases c1 with
    | nil =>
      rcases htl with rfl | h5
      · simp at hh
      · rw [List.nil_append, h5] at hh
        have : slash = dot := by simpa using hh
        exact absurd this (by decide)
    | cons y c2 =>
      have hy : y = dot := by simpa using hh
      have hs2 : slash ∉ c2 := fun h => hs1 (List.mem_cons_of_mem _ h)
      simp only [List.cons_append, List.drop_succ_cons, List.drop_zero] at h
      rcases h with h | h
      · exact hd2 (by rw [hc0, hy, hnil c2 h])
      · exact hd2 (by rw [hc0, hy, hhead c2 hs2 h])
  obtain ⟨ht, hdw⟩ := takeWhile_element_append (c0 :: c1) tl hs htl
  rw [List.cons_append, cleanLoop]
  simp only [h0, if_false, h2, h3]
  rw [← List.cons_append, ht, hdw, rootedBuffer_push _ st hst]

theorem slashed_cons (c : Str) (cs : List Str) :
    slashed (c :: cs) = slash :: (c ++ slashed cs) := by
  simp [slashed]

theorem slashed_head (cs : List Str) : slashed cs = [] ∨ (slashed cs).head? = some slash := by
  cases cs with
  | nil => exact Or.inl rfl
  | cons c cs => right; simp [slashed_cons]

/-- The loop of `path.Clean`, fed with a cleaned sequence of elements, copies them all. -/
theorem cleanLoop_slashed :
    ∀ (cs : List Str) (st : List Str) (fuel : Nat),
      (∀ e ∈ cs, IsElement e) → (∀ e ∈ st, e ≠ []) → (slashed cs).length ≤ fuel →
      cleanLoop true fuel (slashed cs) (rootedBuffer st) 1 = rootedBuffer (cs.reverse ++ st) := by
  intro cs
  induction cs with
  | nil =>
    intro st fuel _ _ _
    cases fuel <;> simp [slashed, cleanLoop]
  | cons c cs ih =>
    intro st fuel hcs hst hfuel
    have hc := hcs c (List.mem_cons_self _ _)
    have hpos : 0 < c.length := List.length_pos.mpr hc.1
    rw [slashed_cons] at hfuel ⊢
    simp only [List.length_cons, List.length_append] at hfuel
    obtain ⟨f, rfl⟩ : ∃ f, fuel = f + 2 := ⟨fuel - 2, by omega⟩
    rw [cleanLoop_skip_slash, cleanLoop_copy_element f c (slashed cs) st hc (slashed_head cs) hst,
      ih (c :: st) f (fun e he => hcs e (List.mem_cons_of_mem _ he))
        (by
          intro e he
          rcases List.mem_cons.mp he with rfl | he
          · exact hc.1
          · exact hst e he)
        (by omega)]
    simp

theorem rootedBuffer_reverse (st : List Str) :
    (rootedBuffer st).reverse = rootedPath st.reverse := by
  have hbody : ∀ (l : List Str),
      ((l.map (fun c => c.reverse ++ [slash])).flatten).reverse = slashed l.reverse := by
    intro l
    induction l with
    | nil => simp [slashed]
    | cons c l ih =>
      simp only [List.map_cons, List.flatten_cons, List.reverse_append, ih, List.reverse_cons,
        List.reverse_nil, List.nil_append, List.reverse_reverse, slashed, List.map_append,
        List.flatten_append, List.map_nil, List.flatten_nil, List.append_nil,
        List.singleton_append, List.append_assoc]
  by_cases h : st = []
  · simp [h, rootedBuffer, rootedPath]
  · have h2 : st.reverse ≠ [] := by simpa using h
    simp only [rootedBuffer, rootedPath, h, h2, if_false]
    exact hbody st

/-! ## `strings.TrimSpace` -/

theorem stripOne_none (encs : List Str) (s : Str) (h : ∀ e ∈ encs, ¬ e <+: s) :
    stripOne encs s = none := by
  simp only [stripOne, Option.map_eq_none', List.find?_eq_none]
  intro e he hp
  exact h e he ( List.isPrefixOf_iff_prefix.mp hp)

theorem trimLeftWith_of_none (encs : List Str) (n : Nat) (s : Str)
    (h : stripOne encs s = none) : trimLeftWith encs n s = s := by
  cases n <;> simp [trimLeftWith, h]

theorem trimLeftWith_drop (encs : List Str) :
    ∀ (n : Nat) (s : Str), ∃ k, trimLeftWith encs n s = s.drop k := by
  intro n
  induction n with
  | zero => intro s; exact ⟨0, by simp [trimLeftWith]⟩
  | succ n ih =>
    intro s
    cases h : stripOne encs s with
    | none => exact ⟨0, by simp [trimLeftWith, h]⟩
    | some t =>
      simp only [stripOne, Option.map_eq_some'] at h
      obtain ⟨e, _, rfl⟩ := h
      obtain ⟨k, hk⟩ := ih (s.drop e.length)
      refine ⟨e.length + k, ?_⟩
      have h2 : stripOne encs s = some (s.drop e.length) := by
        simp only [stripOne, Option.map_eq_some']
        exact ⟨e, by assumption, rfl⟩
      simp only [trimLeftWith, h2, hk, List.drop_drop]

theorem trimLeftSpace_of_not_startsWithSpace (s : Str) (h : ¬ startsWithSpace s) :
    trimLeftSpace s = s :=
  trimLeftWith_of_none _ _ _ (stripOne_none _ _ (fun e he hp => h ⟨e, he, hp⟩))

theorem trimRightSpace_of_not_endsWithSpace (s : Str) (h : ¬ endsWithSpace s) :
    trimRightSpace s = s := by
  unfold trimRightSpace
  rw [trimLeftWith_of_none, List.reverse_reverse]
  apply stripOne_none
  intro e1 he1 hp
  obtain ⟨e, he, rfl⟩ := List.mem_map.mp he1
  exact h ⟨e, he, ( List.reverse_prefix).mp hp⟩

theorem mem_of_mem_TrimSpace (s : Str) (x : UInt8) (h : x ∈ TrimSpace s) : x ∈ s := by
  unfold TrimSpace trimRightSpace trimLeftSpace at h
  obtain ⟨k1, h1⟩ := trimLeftWith_drop spaceEncodings s.length s
  obtain ⟨k2, h2⟩ := trimLeftWith_drop (spaceEncodings.map List.reverse)
    (trimLeftWith spaceEncodings s.length s).length (trimLeftWith spaceEncodings s.length s).reverse
  rw [h2] at h
  have h3 := List.mem_of_mem_drop (List.mem_reverse.mp h)
  rw [List.mem_reverse, h1] at h3
  exact List.mem_of_mem_drop h3

theorem not_startsWithSpace_slash (s : Str) : ¬ startsWithSpace (slash :: s) := by
  rintro ⟨e, he, hp⟩
  have hb : e.isPrefixOf (slash :: s) = true := List.isPrefixOf_iff_prefix.mpr hp
  simp only [spaceEncodings, List.mem_cons, List.mem_singleton, List.not_mem_nil, or_false] at he
  rcases he with h | h | h | h | h | h | h | h | h | h | h | h | h | h | h | h | h | h | h | h |
    h | h | h | h | h <;> subst h <;> simp [List.isPrefixOf, slash] at hb

theorem not_endsWithSpace_slash (s : Str) : ¬ endsWithSpace (s ++ [slash]) := by
  rintro ⟨e, he, hp⟩
  have hp2 : e.reverse <+: (s ++ [slash]).reverse := ( List.reverse_prefix).mpr hp
  rw [List.reverse_append] at hp2
  have hb : e.reverse.isPrefixOf (slash :: s.reverse) = true :=
    List.isPrefixOf_iff_prefix.mpr (by simpa using hp2)
  simp only [spaceEncodings, List.mem_cons, List.mem_singleton, List.not_mem_nil, or_false] at he
  rcases he with h | h | h | h | h | h | h | h | h | h | h | h | h | h | h | h | h | h | h | h |
    h | h | h | h | h <;> subst h <;> simp [List.isPrefixOf, slash] at hb

/-! ## Fuel -/

/-- The fuel of `cleanLoop` never runs out: every iteration consumes a byte, so any fuel of
at least the length of the input gives the same buffer. -/
theorem cleanLoop_fuel (rooted : Bool) :
    ∀ (f1 f2 : Nat) (rest out : Str) (dotdot : Nat), rest.length ≤ f1 → rest.length ≤ f2 →
      cleanLoop rooted f1 rest out dotdot = cleanLoop rooted f2 rest out dotdot := by
  intro f1
  induction f1 with
  | zero =>
    intro f2 rest out dotdot h1 _
    have : rest = [] := List.length_eq_zero.mp (Nat.le_zero.mp h1)
    subst this
    cases f2 <;> simp [cleanLoop]
  | succ f1 ih =>
    intro f2 rest out dotdot h1 h2
    cases rest with
    | nil => cases f2 <;> simp [cleanLoop]
    | cons c t =>
      obtain ⟨f3, rfl⟩ : ∃ f3, f2 = f3 + 1 := ⟨f2 - 1, by simp at h2; omega⟩
      simp only [List.length_cons, Nat.add_le_add_iff_right] at h1 h2
      have hd : (t.drop 1).length ≤ t.length := by simp
      rw [cleanLoop, cleanLoop]
      by_cases hc : c = slash
      · simp only [hc, if_true]
        exact ih _ _ _ _ h1 h2
      · have hw : ((c :: t).dropWhile (fun b => b != slash)).length ≤ t.length := by
          rw [dropWhile_cons_notSlash c t hc]
          exact (List.dropWhile_sublist _).length_le
        simp only [hc, if_false]
        split
        · exact ih _ _ _ _ h1 h2
        · split
          · split
            · exact ih _ _ _ _ (le_trans hd h1) (le_trans hd h2)
            · split
              · exact ih _ _ _ _ (le_trans hd h1) (le_trans hd h2)
              · exact ih _ _ _ _ (le_trans hd h1) (le_trans hd h2)
          · exact ih _ _ _ _ (le_trans hw h1) (le_trans hw h2)

/-- The fuel of `trimLeftWith` never runs out: with fuel of at least the length of the text,
nothing is left to remove at the start of the result. -/
theorem trimLeftWith_done (encs : List Str) (hencs : ∀ e ∈ encs, e ≠ []) :
    ∀ (n : Nat) (s : Str), s.length ≤ n → stripOne encs (trimLeftWith encs n s) = none := by
  intro n
  induction n with
  | zero =>
    intro s hs
    have : s = [] := List.length_eq_zero.mp (Nat.le_zero.mp hs)
    subst this
    apply stripOne_none
    intro e he hp
    exact hencs e he (List.prefix_nil.mp hp)
  | succ n ih =>
    intro s hs
    cases h : stripOne encs s with
    | none => simp [trimLeftWith, h]
    | some t =>
      simp only [trimLeftWith, h]
      apply ih
      simp only [stripOne, Option.map_eq_some'] at h
      obtain ⟨e, he, rfl⟩ := h
      have hmem := List.mem_of_find?_eq_some he
      have hpre : e <+: s :=
        List.isPrefixOf_iff_prefix.mp (@List.find?_some _ (fun e => e.isPrefixOf s) e encs he)
      have hpos : 0 < e.length := List.length_pos.mpr (hencs e hmem)
      have hle : e.length ≤ s.length := hpre.length_le
      rw [List.length_drop]
      omega

theorem spaceEncodings_ne_nil : ∀ e ∈ spaceEncodings, e ≠ [] := by decide

/-- The model of `strings.TrimSpace` leaves no white space at either end. -/
theorem TrimSpace_trimmed (s : Str) :
    ¬ startsWithSpace (TrimSpace s) ∧ ¬ endsWithSpace (TrimSpace s) := by
  have hleft : ¬ startsWithSpace (trimLeftSpace s) := by
    rintro ⟨e, he, hp⟩
    have hnone := trimLeftWith_done spaceEncodings spaceEncodings_ne_nil s.length s (le_refl _)
    simp only [stripOne, Option.map_eq_none', List.find?_eq_none] at hnone
    exact hnone e he ( List.isPrefixOf_iff_prefix.mpr hp)
  have hrev : ∀ (u : Str), stripOne (spaceEncodings.map List.reverse)
      (trimLeftWith (spaceEncodings.map List.reverse) u.length u.reverse) = none := by
    intro u
    apply trimLeftWith_done
    · intro e1 he1
      obtain ⟨e, he, rfl⟩ := List.mem_map.mp he1
      simpa using spaceEncodings_ne_nil e he
    · simp
  constructor
  · rintro ⟨e, he, hp⟩
    apply hleft
    refine ⟨e, he, hp.trans ?_⟩
    unfold TrimSpace trimRightSpace
    obtain ⟨k, hk⟩ := trimLeftWith_drop (spaceEncodings.map List.reverse)
      (trimLeftSpace s).length (trimLeftSpace s).reverse
    rw [hk, ← List.reverse_suffix, List.reverse_reverse]
    exact List.drop_suffix _ _
  · rintro ⟨e, he, hp⟩
    have hnone := hrev (trimLeftSpace s)
    simp only [stripOne, Option.map_eq_none', List.find?_eq_none] at hnone
    apply hnone e.reverse (List.mem_map_of_mem _ he)
    apply List.isPrefixOf_iff_prefix.mpr
    unfold TrimSpace trimRightSpace at hp
    have := ( List.reverse_prefix).mpr hp
    rwa [List.reverse_reverse] at this

/-! ## The prefix of a group -/

theorem pathClean_double_slash (t : Str) :
    pathClean (slash :: slash :: t) = pathClean (slash :: t) := by
  simp only [pathClean, decide_True, if_true, List.length_cons]
  rw [cleanLoop_skip_slash]

theorem pathClean_rooted (P : UInt8 → Prop) (t : Str) (hP : ∀ x ∈ t, P x) :
    ∃ cs, (∀ e ∈ cs, IsElement e ∧ ∀ x ∈ e, P x) ∧ pathClean (slash :: t) = rootedPath cs := by
  obtain ⟨st, hst, heq⟩ := cleanLoop_rooted_invariant P (t.length + 1) t [] hP
    (fun e he => absurd he (List.not_mem_nil e))
  rw [rootedBuffer_nil] at heq
  refine ⟨st.reverse, fun e he => hst e (List.mem_reverse.mp he), ?_⟩
  simp only [pathClean, decide_True, if_true, List.length_cons, heq]
  have hne : (rootedBuffer st).length ≠ 0 := by
    cases st with
    | nil => simp [rootedBuffer]
    | cons c st => rw [rootedBuffer_cons]; simp
  simp only [hne, if_false]
  exact rootedBuffer_reverse st

theorem pathClean_rootedPath (cs : List Str) (hcs : ∀ e ∈ cs, IsElement e) :
    pathClean (slash :: rootedPath cs) = rootedPath cs := by
  by_cases h : cs = []
  · subst h
    have : rootedPath [] = [slash] := rfl
    rw [this]
    decide
  · have hp : rootedPath cs = slashed cs := by simp [rootedPath, h]
    have hb : (rootedBuffer cs.reverse).length ≠ 0 := by
      have h2 : cs.reverse ≠ [] := by simpa using h
      obtain ⟨d, st, hd⟩ := List.exists_cons_of_ne_nil h2
      rw [hd, rootedBuffer_cons]; simp
    have hloop := cleanLoop_slashed cs [] ((slashed cs).length + 1) hcs
      (fun e he => absurd he (List.not_mem_nil e)) (Nat.le_succ _)
    rw [List.append_nil, rootedBuffer_nil] at hloop
    rw [hp]
    simp only [pathClean, decide_True, if_true, List.length_cons, hloop, hb, if_false]
    rw [rootedBuffer_reverse, List.reverse_reverse, hp]

theorem pathClean_element (p : Str) (hp : IsElement p) : pathClean (slash :: p) = slash :: p := by
  have h := pathClean_rootedPath [p] (fun e he => by
    rw [List.mem_singleton] at he
    rw [he]
    exact hp)
  have hr : rootedPath [p] = slash :: p := by simp [rootedPath, slashed]
  rw [hr, pathClean_double_slash] at h
  exact h

theorem groupPrefix_of_empty (raw : Str) (h : TrimSpace (removeByte quote raw) = []) :
    groupPrefix raw = [] := by
  simp [groupPrefix, h]

theorem groupPrefix_of_nonempty (raw : Str) (h : TrimSpace (removeByte quote raw) ≠ []) :
    groupPrefix raw = pathClean (slash :: TrimSpace (removeByte quote raw)) := by
  have hl : (TrimSpace (removeByte quote raw)).length > 0 := List.length_pos.mpr h
  have hs : ascii "/" = [slash] := by decide
  simp only [groupPrefix, hl, if_true, pathJoin, hs]
  have hsum : ¬ (List.map List.length [[slash], TrimSpace (removeByte quote raw)]).sum = 0 := by
    simp
  simp only [hsum, if_false, joinNonEmpty]
  simp [pathClean_double_slash]

theorem removeByte_quote_notMem (s : Str) : quote ∉ removeByte quote s := by
  simp [removeByte]

theorem removeByte_of_notMem (b : UInt8) (s : Str) (h : b ∉ s) : removeByte b s = s := by
  unfold removeByte
  rw [List.filter_eq_self]
  intro a ha
  have : a ≠ b := fun hab => h (hab ▸ ha)
  simpa using this

/-- The prefix of a group is empty or a cleaned rooted path without a double quote. -/
theorem groupPrefix_cases (raw : Str) :
    (TrimSpace (removeByte quote raw) = [] ∧ groupPrefix raw = []) ∨
      (TrimSpace (removeByte quote raw) ≠ [] ∧
        ∃ cs, (∀ e ∈ cs, IsElement e ∧ ∀ x ∈ e, x ≠ quote) ∧ groupPrefix raw = rootedPath cs) := by
  by_cases h : TrimSpace (removeByte quote raw) = []
  · exact Or.inl ⟨h, groupPrefix_of_empty raw h⟩
  · right
    refine ⟨h, ?_⟩
    rw [groupPrefix_of_nonempty raw h]
    apply pathClean_rooted
    intro x hx hq
    subst hq
    exact removeByte_quote_notMem raw (mem_of_mem_TrimSpace _ _ hx)

theorem rootedPath_head (cs : List Str) : ∃ t, rootedPath cs = slash :: t := by
  cases cs with
  | nil => exact ⟨[], rfl⟩
  | cons c cs => exact ⟨c ++ slashed cs, by simp [rootedPath, slashed_cons]⟩

theorem rootedPath_quote (cs : List Str) (h : ∀ e ∈ cs, ∀ x ∈ e, x ≠ quote) :
    quote ∉ rootedPath cs := by
  have hs : ∀ (l : List Str), (∀ e ∈ l, ∀ x ∈ e, x ≠ quote) → quote ∉ slashed l := by
    intro l hl
    induction l with
    | nil => simp [slashed]
    | cons c l ih =>
      rw [slashed_cons]
      intro hm
      rcases List.mem_cons.mp hm with h1 | h1
      · exact absurd h1 (by decide)
      · rcases List.mem_append.mp h1 with h2 | h2
        · exact hl c (List.mem_cons_self _ _) quote h2 rfl
        · exact ih (fun e he => hl e (List.mem_cons_of_mem _ he)) h2
  by_cases hc : cs = []
  · subst hc
    decide
  · simp only [rootedPath, hc, if_false]
    exact hs cs h

theorem groupPrefix_rootedPath (cs : List Str)
    (hcs : ∀ e ∈ cs, IsElement e ∧ ∀ x ∈ e, x ≠ quote)
    (hend : ¬ endsWithSpace (rootedPath cs)) :
    groupPrefix (rootedPath cs) = rootedPath cs := by
  have hq : removeByte quote (rootedPath cs) = rootedPath cs :=
    removeByte_of_notMem _ _ (rootedPath_quote cs (fun e he => (hcs e he).2))
  obtain ⟨t, ht⟩ := rootedPath_head cs
  have htrim : TrimSpace (rootedPath cs) = rootedPath cs := by
    unfold TrimSpace
    rw [trimLeftSpace_of_not_startsWithSpace _ (by rw [ht]; exact not_startsWithSpace_slash t),
      trimRightSpace_of_not_endsWithSpace _ hend]
  have hne : TrimSpace (removeByte quote (rootedPath cs)) ≠ [] := by
    rw [hq, htrim, ht]; simp
  rw [groupPrefix_of_nonempty _ hne, hq, htrim]
  exact pathClean_rootedPath cs (fun e he => (hcs e he).1)

/-- C5, as stated, fails: the annotation value `a /` normalizes to `/a ` (the white space
that stood before the slash now ends the prefix), and `/a ` normalizes to `/a`. -/
theorem groupPrefix_not_idempotent :
    groupPrefix (ascii "a /") = ascii "/a " ∧
      groupPrefix (groupPrefix (ascii "a /")) = ascii "/a" ∧
      ¬ (∀ s : Str, groupPrefix (groupPrefix s) = groupPrefix s) := by
  refine ⟨by decide, by decide, ?_⟩
  intro h
  exact absurd (h (ascii "a /")) (by decide)

/-- C5, amended: prefix normalization is idempotent on every annotation value whose
normalized prefix does not end with white space. -/
theorem groupPrefix_idempotent (s : Str) (h : ¬ endsWithSpace (groupPrefix s)) :
    groupPrefix (groupPrefix s) = groupPrefix s := by
  rcases groupPrefix_cases s with ⟨_, he⟩ | ⟨_, cs, hcs, he⟩
  · rw [he]
    decide
  · rw [he] at h ⊢
    exact groupPrefix_rootedPath cs hcs h

/-- An instance: the value ` "/api//v1/" ` normalizes to
`/api/v1`, which normalizes to itself. -/
theorem groupPrefix_idempotent_witness :
    groupPrefix (ascii " \"/api//v1/\" ") = ascii "/api/v1" ∧
      groupPrefix (groupPrefix (ascii " \"/api//v1/\" ")) =
        groupPrefix (ascii " \"/api//v1/\" ") :=
  ⟨by decide, groupPrefix_idempotent (ascii " \"/api//v1/\" ") (by decide)⟩

theorem groupPrefix_single_element (raw : Str)
    (h : TrimSpace (removeByte quote raw) ≠ [])
    (hs : slash ∉ TrimSpace (removeByte quote raw)) : ¬ endsWithSpace (groupPrefix raw) := by
  rw [groupPrefix_of_nonempty raw h]
  have htr := (TrimSpace_trimmed (removeByte quote raw)).2
  generalize TrimSpace (removeByte quote raw) = t at h hs htr
  by_cases h1 : t = [dot]
  · subst h1; decide
  · by_cases h2 : t = [dot, dot]
    · subst h2; decide
    · rw [pathClean_element t ⟨h, hs, h1, h2⟩]
      rintro ⟨e, he, hp⟩
      rcases List.suffix_cons_iff.mp hp with h3 | h3
      · exact not_startsWithSpace_slash t ⟨e, he, by rw [h3]⟩
      · exact htr ⟨e, he, h3⟩

/-! ## The path elements that survive `path.Clean` -/

theorem splitByte_ne_nil (sep : UInt8) (s : Str) : splitByte sep s ≠ [] := by
  cases s with
  | nil => simp [splitByte]
  | cons c s =>
    rw [splitByte]
    split
    · simp
    · split <;> simp

theorem splitByte_cons_ne (sep c : UInt8) (s : Str) (h : c ≠ sep) :
    ∃ hd tl, splitByte sep s = hd :: tl ∧ splitByte sep (c :: s) = (c :: hd) :: tl := by
  obtain ⟨hd, tl, hs⟩ := List.exists_cons_of_ne_nil (splitByte_ne_nil sep s)
  refine ⟨hd, tl, hs, ?_⟩
  rw [splitByte]
  simp only [h, if_false, hs]

theorem splitByte_cons_sep (sep : UInt8) (s : Str) :
    splitByte sep (sep :: s) = [] :: splitByte sep s := by
  rw [splitByte]
  simp

theorem splitByte_segment_nil (sep : UInt8) (seg : Str) (hs : sep ∉ seg) :
    splitByte sep seg = [seg] := by
  induction seg with
  | nil => simp [splitByte]
  | cons c seg ih =>
    have hc : c ≠ sep := fun h => hs (by simp [h])
    obtain ⟨hd, tl, h1, h2⟩ := splitByte_cons_ne sep c seg hc
    rw [ih (fun h => hs (List.mem_cons_of_mem _ h))] at h1
    injection h1 with h3 h4
    rw [h2, ← h3, ← h4]

theorem splitByte_segment_cons (sep : UInt8) (seg rest : Str) (hs : sep ∉ seg) :
    splitByte sep (seg ++ sep :: rest) = seg :: splitByte sep rest := by
  induction seg with
  | nil => simp [splitByte_cons_sep]
  | cons c seg ih =>
    have hc : c ≠ sep := fun h => hs (by simp [h])
    obtain ⟨hd, tl, h1, h2⟩ := splitByte_cons_ne sep c (seg ++ sep :: rest) hc
    rw [ih (fun h => hs (List.mem_cons_of_mem _ h))] at h1
    injection h1 with h3 h4
    rw [List.cons_append, h2, ← h3, ← h4]

theorem resolveElements_drop_empty (st : List Str) (rest : List Str) :
    resolveElements st ([] :: rest) = resolveElements st rest := by
  simp [resolveElements]

/-- A text that starts with an element without `/`, followed by nothing or by a `/`: the
element is its first one, and the elements that follow are those of the rest. -/
theorem splitByte_first (seg rest : Str) (hs : slash ∉ seg)
    (h : rest = [] ∨ rest.head? = some slash) :
    ∃ tl, splitByte slash (seg ++ rest) = seg :: tl ∧
      ∀ st, resolveElements st (splitByte slash rest) = resolveElements st tl := by
  rcases h with rfl | h
  · refine ⟨[], by rw [List.append_nil, splitByte_segment_nil slash seg hs], fun st => ?_⟩
    simp [splitByte, resolveElements]
  · cases rest with
    | nil => simp at h
    | cons y t =>
      have hy : y = slash := by simpa using h
      subst hy
      refine ⟨splitByte slash t, splitByte_segment_cons slash seg t hs, fun st => ?_⟩
      rw [splitByte_cons_sep, resolveElements_drop_empty]

theorem takeWhile_dropWhile_head (s : Str) :
    s.dropWhile (fun b => b != slash) = [] ∨
      (s.dropWhile (fun b => b != slash)).head? = some slash := by
  induction s with
  | nil => exact Or.inl rfl
  | cons c s ih =>
    by_cases hc : c = slash
    · right
      rw [List.dropWhile_cons]
      simp [hc]
    · rw [dropWhile_cons_notSlash c s hc]
      exact ih

/-- The loop of `path.Clean` on a rooted path computes the surviving elements. -/
theorem cleanLoop_resolveElements :
    ∀ (fuel : Nat) (rest : Str) (st : List Str), rest.length ≤ fuel →
      (∀ e ∈ st, IsElement e) →
      cleanLoop true fuel rest (rootedBuffer st) 1 =
        rootedBuffer (resolveElements st (splitByte slash rest)) := by
  intro fuel
  induction fuel with
  | zero =>
    intro rest st h _
    have : rest = [] := List.length_eq_zero.mp (Nat.le_zero.mp h)
    subst this
    simp [cleanLoop, splitByte, resolveElements]
  | succ fuel ih =>
    intro rest st hlen hst
    cases rest with
    | nil => simp [cleanLoop, splitByte, resolveElements]
    | cons c t =>
      simp only [List.length_cons, Nat.add_le_add_iff_right] at hlen
      have hne : ∀ e ∈ st, e ≠ [] := fun e he => (hst e he).1
      rw [cleanLoop]
      by_cases h1 : c = slash
      · simp only [h1, if_true]
        rw [ih t st hlen hst, splitByte_cons_sep, resolveElements_drop_empty]
      · simp only [h1, if_false]
        by_cases h2 : c = dot ∧ (t = [] ∨ t.head? = some slash)
        · rw [if_pos h2]
          obtain ⟨tl, hsplit, hres⟩ := splitByte_first [dot] t (by decide) h2.2
          rw [ih t st hlen hst, h2.1]
          have : dot :: t = [dot] ++ t := rfl
          rw [this, hsplit, hres st]
          simp [resolveElements]
        · rw [if_neg h2]
          by_cases h3 : c = dot ∧ t.head? = some dot ∧
              (t.drop 1 = [] ∨ (t.drop 1).head? = some slash)
          · rw [if_pos h3]
            obtain ⟨hc, hhead, htail⟩ := h3
            obtain ⟨y, t1, rfl⟩ : ∃ y t1, t = y :: t1 := by
              cases t with
              | nil => simp at hhead
              | cons y t1 => exact ⟨y, t1, rfl⟩
            have hy : y = dot := by simpa using hhead
            subst hy
            subst hc
            simp only [List.drop_succ_cons, List.drop_zero] at htail ⊢
            have hlen1 : t1.length ≤ fuel := by simp at hlen; omega
            obtain ⟨tl, hsplit, hres⟩ := splitByte_first [dot, dot] t1 (by decide) htail
            have hlist : dot :: dot :: t1 = [dot, dot] ++ t1 := rfl
            have htailel : ∀ e ∈ st.tail, IsElement e :=
              fun e he => hst e (List.mem_of_mem_tail he)
            have hres2 : resolveElements st (splitByte slash (dot :: dot :: t1)) =
                resolveElements st.tail tl := by
              rw [hlist, hsplit]
              simp [resolveElements, show ([dot, dot] : Str) ≠ [dot] by decide]
            rw [hres2, ← hres st.tail]
            cases st with
            | nil =>
              have hl : ¬ (rootedBuffer []).length > 1 := by
                rw [rootedBuffer_nil]; decide
              rw [if_neg hl]
              simp only [Bool.not_true, Bool.false_eq_true, if_false, List.tail_nil]
              exact ih t1 [] hlen1 (fun e he => absurd he (List.not_mem_nil e))
            | cons e st0 =>
              have he := hst e (List.mem_cons_self _ _)
              have hlen2 : (rootedBuffer (e :: st0)).length > 1 := by
                have h0 := rootedBuffer_length_eq_one (e :: st0) hne
                have hpos : 0 < (rootedBuffer (e :: st0)).length := by
                  rw [rootedBuffer_cons]; simp
                have : (rootedBuffer (e :: st0)).length ≠ 1 := fun h => by
                  have := h0.mp h
                  cases this
                omega
              rw [if_pos hlen2, List.tail_cons, backtrack_rootedBuffer e st0 he.1 he.2.1]
              exact ih t1 st0 hlen1 (fun e1 h1 => hst e1 (List.mem_cons_of_mem _ h1))
          · rw [if_neg h3]
            have hel := element_takeWhile c t h1 h2 h3
            show cleanLoop true fuel ((c :: t).dropWhile (fun b => b != slash))
              (((c :: t).takeWhile (fun b => b != slash)).reverse ++
                (if (true && (rootedBuffer st).length != 1) ||
                  (!true && (rootedBuffer st).length != 0) then slash :: rootedBuffer st
                else rootedBuffer st)) 1 = _
            rw [rootedBuffer_push _ st hne]
            have hdl : ((c :: t).dropWhile (fun b => b != slash)).length ≤ fuel := by
              rw [dropWhile_cons_notSlash c t h1]
              exact le_trans (List.dropWhile_sublist _).length_le hlen
            rw [ih _ _ hdl (by
              intro e1 he1
              rcases List.mem_cons.mp he1 with rfl | he1
              · exact hel
              · exact hst e1 he1)]
            obtain ⟨tl, hsplit, hres⟩ := splitByte_first
              ((c :: t).takeWhile (fun b => b != slash))
              ((c :: t).dropWhile (fun b => b != slash)) hel.2.1
              (takeWhile_dropWhile_head (c :: t))
            rw [List.takeWhile_append_dropWhile] at hsplit
            rw [hsplit, hres]
            have hnd : ¬ ((c :: t).takeWhile (fun b => b != slash) = [] ∨
                (c :: t).takeWhile (fun b => b != slash) = [dot]) := by
              rintro (h | h)
              · exact hel.1 h
              · exact hel.2.2.1 h
            simp only [resolveElements, hnd, if_false, hel.2.2.2]

theorem splitByte_head (sep : UInt8) (s : Str) :
    ∃ hd tl, splitByte sep s = hd :: tl ∧
      ((tl = [] ∧ s = hd) ∨ ∃ rest, s = hd ++ sep :: rest ∧ tl = splitByte sep rest) := by
  induction s with
  | nil => exact ⟨[], [], by simp [splitByte], Or.inl ⟨rfl, rfl⟩⟩
  | cons x s ih =>
    by_cases hx : x = sep
    · subst hx
      exact ⟨[], splitByte x s, splitByte_cons_sep x s, Or.inr ⟨s, rfl, rfl⟩⟩
    · obtain ⟨hd, tl, h1, h2⟩ := splitByte_cons_ne sep x s hx
      obtain ⟨hd1, tl1, h3, h4⟩ := ih
      rw [h1] at h3
      injection h3 with h5 h6
      subst h5
      subst h6
      refine ⟨x :: hd, tl, h2, ?_⟩
      rcases h4 with ⟨h7, h8⟩ | ⟨rest, h7, h8⟩
      · exact Or.inl ⟨h7, by rw [h8]⟩
      · exact Or.inr ⟨rest, by rw [h7]; rfl, h8⟩

/-- An element of a text cut at `sep` ends the text or is followed by `sep` in it. -/
theorem mem_splitByte (sep : UInt8) (s : Str) :
    ∀ c ∈ splitByte sep s, c <:+ s ∨ (c ++ [sep]) <:+: s := by
  induction s with
  | nil =>
    intro c hc
    simp only [splitByte, List.mem_singleton] at hc
    subst hc
    exact Or.inl (List.suffix_refl _)
  | cons x s ih =>
    intro c hc
    have hext : ∀ d, (d <:+ s ∨ (d ++ [sep]) <:+: s) →
        (d <:+ x :: s ∨ (d ++ [sep]) <:+: x :: s) := by
      rintro d (h | h)
      · exact Or.inl (h.trans (List.suffix_cons x s))
      · exact Or.inr (h.trans (List.suffix_cons x s).isInfix)
    by_cases hx : x = sep
    · subst hx
      rw [splitByte_cons_sep] at hc
      rcases List.mem_cons.mp hc with rfl | hc
      · right
        exact (List.prefix_append [x] s).isInfix
      · exact hext c (ih c hc)
    · obtain ⟨hd, tl, h1, h2⟩ := splitByte_cons_ne sep x s hx
      rw [h2] at hc
      rcases List.mem_cons.mp hc with rfl | hc
      · obtain ⟨hd1, tl1, h3, h4⟩ := splitByte_head sep s
        rw [h1] at h3
        injection h3 with h5 h6
        subst h5
        subst h6
        rcases h4 with ⟨_, h8⟩ | ⟨rest, h7, _⟩
        · left
          rw [h8]
        · right
          rw [h7]
          exact ⟨[], rest, by simp⟩
      · exact hext c (ih c (by rw [h1]; exact List.mem_cons_of_mem _ hc))

theorem mem_resolveElements (segs : List Str) :
    ∀ (st : List Str), ∀ e ∈ resolveElements st segs, e ∈ st ∨ e ∈ segs := by
  induction segs with
  | nil =>
    intro st e he
    exact Or.inl he
  | cons seg rest ih =>
    intro st e he
    rw [resolveElements] at he
    by_cases h1 : seg = [] ∨ seg = [dot]
    · rw [if_pos h1] at he
      rcases ih st e he with h | h
      · exact Or.inl h
      · exact Or.inr (List.mem_cons_of_mem _ h)
    · rw [if_neg h1] at he
      by_cases h2 : seg = [dot, dot]
      · rw [if_pos h2] at he
        rcases ih st.tail e he with h | h
        · exact Or.inl (List.mem_of_mem_tail h)
        · exact Or.inr (List.mem_cons_of_mem _ h)
      · rw [if_neg h2] at he
        rcases ih (seg :: st) e he with h | h
        · rcases List.mem_cons.mp h with rfl | h
          · exact Or.inr (List.mem_cons_self _ _)
          · exact Or.inl h
        · exact Or.inr (List.mem_cons_of_mem _ h)

/-- The cleaned rooted path `/t` is made of the surviving elements of `t`. -/
theorem pathClean_survivingElements (t : Str) :
    pathClean (slash :: t) = rootedPath (survivingElements t) := by
  have hloop := cleanLoop_resolveElements (t.length + 1) t [] (Nat.le_succ _)
    (fun e he => absurd he (List.not_mem_nil e))
  rw [rootedBuffer_nil] at hloop
  simp only [pathClean, decide_True, if_true, List.length_cons, hloop]
  have hne : (rootedBuffer (resolveElements [] (splitByte slash t))).length ≠ 0 := by
    cases resolveElements [] (splitByte slash t) with
    | nil => simp [rootedBuffer]
    | cons c st => rw [rootedBuffer_cons]; simp
  simp only [hne, if_false]
  exact rootedBuffer_reverse _

theorem spaceEncodings_no_slash : ∀ e ∈ spaceEncodings, slash ∉ e := by
  decide

theorem slashed_concat (cs : List Str) (c : Str) :
    slashed (cs ++ [c]) = slashed cs ++ slash :: c := by
  simp [slashed]

/-- A rooted path ends with white space exactly when its last element does. -/
theorem endsWithSpace_rootedPath (cs : List Str) :
    endsWithSpace (rootedPath cs) ↔ ∃ c, cs.getLast? = some c ∧ endsWithSpace c := by
  rcases List.eq_nil_or_concat cs with rfl | ⟨init, c, rfl⟩
  · constructor
    · intro h
      exact absurd h (not_endsWithSpace_slash [])
    · rintro ⟨c, hc, _⟩
      simp at hc
  · rw [List.concat_eq_append]
    have hr : rootedPath (init ++ [c]) = slashed init ++ slash :: c := by
      simp [rootedPath, slashed_concat]
    rw [hr]
    constructor
    · rintro ⟨e, he, hp⟩
      refine ⟨c, by simp, e, he, ?_⟩
      have hsc : (slash :: c) <:+ slashed init ++ slash :: c := List.suffix_append _ _
      rcases List.suffix_or_suffix_of_suffix hp hsc with h | h
      · rcases List.suffix_cons_iff.mp h with h1 | h1
        · exact absurd (by rw [h1]; exact List.mem_cons_self _ _)
            (spaceEncodings_no_slash e he)
        · exact h1
      · exact absurd (h.subset (List.mem_cons_self _ _)) (spaceEncodings_no_slash e he)
    · rintro ⟨c1, hc1, e, he, hp⟩
      have : c1 = c := by simpa using hc1.symm
      subst this
      exact ⟨e, he, hp.trans ((List.suffix_cons slash c1).trans (List.suffix_append _ _))⟩

/-- A trimmed text in which no white space stands directly before a `/` has no surviving
element that ends with white space. -/
theorem survivingElements_no_trailing_space (t : Str) (ht : ¬ endsWithSpace t)
    (hs : ∀ e ∈ spaceEncodings, ¬ (e ++ [slash]) <:+: t) :
    ∀ c ∈ survivingElements t, ¬ endsWithSpace c := by
  intro c hc
  rintro ⟨e, he, hp⟩
  have hmem : c ∈ splitByte slash t := by
    rcases mem_resolveElements (splitByte slash t) [] c (List.mem_reverse.mp hc) with h | h
    · exact absurd h (List.not_mem_nil c)
    · exact h
  rcases mem_splitByte slash t c hmem with h | h
  · exact ht ⟨e, he, hp.trans h⟩
  · obtain ⟨p, rfl⟩ := hp
    apply hs e he
    have : (e ++ [slash]) <:+ (p ++ e ++ [slash]) := by
      rw [List.append_assoc]
      exact List.suffix_append _ _
    exact this.isInfix.trans h

theorem groupIR_pathPrefix (gp rpk : Str) (ghn : Route → Str) (useGin : Bool) (g : Group) :
    (groupIR gp rpk ghn useGin g).pathPrefix = groupPrefix (g.GetAnnotation rpk) := by
  simp [groupIR]

/-- C6, as stated, fails: for the annotation value `a /` the stored prefix is `/a `, which
ends with a space; its only surviving element is `a `. White space before a `/` that is
followed by another element stays inside the prefix: `a /b` is stored as `/a /b`. -/
theorem groupPrefix_trailing_space :
    TrimSpace (removeByte quote (ascii "a /")) ≠ [] ∧
      (groupIR (ascii "group") (ascii "prefix") (fun r => r.Handler) false
        { Annotation := { Properties := [(ascii "prefix", ascii "a /")] },
          Routes := [] }).pathPrefix = ascii "/a " ∧
      endsWithSpace (ascii "/a ") ∧
      survivingElements (ascii "a /") = [ascii "a "] ∧
      groupPrefix (ascii "a /b") = ascii "/a /b" ∧
      survivingElements (ascii "a /b") = [ascii "a ", ascii "b"] ∧
      ¬ endsWithSpace (ascii "/a /b") := by
  decide

/-- C6, amended: for every group whose prefix annotation is not empty after quote removal
and trimming, the prefix stored in the group IR starts with `/`, its second byte, if any, is
not `/`, it contains no double quote and it does not start with white space; it is the rooted
path of the elements of the trimmed value that survive the cleaning, and it ends with white
space exactly when the last surviving element does, so never when no white space stands
directly before a `/` in the trimmed value. -/
theorem groupIR_pathPrefix_shape (groupProperty routePrefixKey : Str)
    (getHandlerName : Route → Str) (useGin : Bool) (g : Group)
    (h : TrimSpace (removeByte quote (g.GetAnnotation routePrefixKey)) ≠ []) :
    (groupIR groupProperty routePrefixKey getHandlerName useGin g).pathPrefix.head? =
        some slash ∧
      (groupIR groupProperty routePrefixKey getHandlerName useGin g).pathPrefix[1]? ≠
        some slash ∧
      quote ∉ (groupIR groupProperty routePrefixKey getHandlerName useGin g).pathPrefix ∧
      ¬ startsWithSpace
        (groupIR groupProperty routePrefixKey getHandlerName useGin g).pathPrefix ∧
      (groupIR groupProperty routePrefixKey getHandlerName useGin g).pathPrefix =
        rootedPath
          (survivingElements (TrimSpace (removeByte quote (g.GetAnnotation routePrefixKey)))) ∧
      (endsWithSpace (groupIR groupProperty routePrefixKey getHandlerName useGin g).pathPrefix ↔
        ∃ c,
          (survivingElements
            (TrimSpace (removeByte quote (g.GetAnnotation routePrefixKey)))).getLast? = some c ∧
          endsWithSpace c) ∧
      ((∀ e ∈ spaceEncodings,
          ¬ (e ++ [slash]) <:+: TrimSpace (removeByte quote (g.GetAnnotation routePrefixKey))) →
        ¬ endsWithSpace
          (groupIR groupProperty routePrefixKey getHandlerName useGin g).pathPrefix) := by
  rw [groupIR_pathPrefix]
  have hsurv : groupPrefix (g.GetAnnotation routePrefixKey) =
      rootedPath
        (survivingElements (TrimSpace (removeByte quote (g.GetAnnotation routePrefixKey)))) := by
    rw [groupPrefix_of_nonempty _ h]
    exact pathClean_survivingElements _
  have hiff := endsWithSpace_rootedPath
    (survivingElements (TrimSpace (removeByte quote (g.GetAnnotation routePrefixKey))))
  have htrim := (TrimSpace_trimmed (removeByte quote (g.GetAnnotation routePrefixKey))).2
  have hlast : (∀ e ∈ spaceEncodings,
      ¬ (e ++ [slash]) <:+: TrimSpace (removeByte quote (g.GetAnnotation routePrefixKey))) →
      ¬ endsWithSpace (groupPrefix (g.GetAnnotation routePrefixKey)) := by
    intro hs hend
    rw [hsurv] at hend
    obtain ⟨c, hc, hce⟩ := hiff.mp hend
    have hmem : c ∈ survivingElements
        (TrimSpace (removeByte quote (g.GetAnnotation routePrefixKey))) := by
      obtain ⟨ys, hys⟩ := List.getLast?_eq_some_iff.mp hc
      rw [hys]
      simp
    exact survivingElements_no_trailing_space _ htrim hs c hmem hce
  rw [← hsurv] at hiff
  refine ⟨?_, ?_, ?_, ?_, hsurv, hiff, hlast⟩
  all_goals
    rcases groupPrefix_cases (g.GetAnnotation routePrefixKey) with ⟨he, _⟩ | ⟨_, cs, hcs, he⟩
    · exact absurd he h
  · rw [he]
    obtain ⟨t, ht⟩ := rootedPath_head cs
    rw [ht]; rfl
  · rw [he]
    cases cs with
    | nil => simp [rootedPath]
    | cons c cs =>
      have hc := (hcs c (List.mem_cons_self _ _)).1
      obtain ⟨c0, c1, hc01⟩ := List.exists_cons_of_ne_nil hc.1
      have h0 : c0 ≠ slash := fun h0 => hc.2.1 (by rw [hc01, h0]; exact List.mem_cons_self _ _)
      simp [rootedPath, slashed_cons, hc01, h0]
  · rw [he]
    exact rootedPath_quote cs (fun e he => (hcs e he).2)
  · rw [he]
    obtain ⟨t, ht⟩ := rootedPath_head cs
    rw [ht]
    exact not_startsWithSpace_slash t

/-- An instance: the annotation value ` "/api//v1/" ` is
stored as `/api/v1`, which does not end with white space; no white space stands before a
`/` in the trimmed value `/api//v1/`. -/
theorem groupIR_pathPrefix_shape_witness :
    (groupIR (ascii "group") (ascii "prefix") (fun r => r.Handler) false
        { Annotation := { Properties := [(ascii "prefix", ascii " \"/api//v1/\" ")] },
          Routes := [] }).pathPrefix = ascii "/api/v1" ∧
      (groupIR (ascii "group") (ascii "prefix") (fun r => r.Handler) false
        { Annotation := { Properties := [(ascii "prefix", ascii " \"/api//v1/\" ")] },
          Routes := [] }).pathPrefix.head? = some slash ∧
      ¬ endsWithSpace
        (groupIR (ascii "group") (ascii "prefix") (fun r => r.Handler) false
          { Annotation := { Properties := [(ascii "prefix", ascii " \"/api//v1/\" ")] },
            Routes := [] }).pathPrefix :=
  ⟨by decide,
    (groupIR_pathPrefix_shape (ascii "group") (ascii "prefix") (fun r => r.Handler) false
      { Annotation := { Properties := [(ascii "prefix", ascii " \"/api//v1/\" ")] },
        Routes := [] } (by decide)).1,
    (groupIR_pathPrefix_shape (ascii "group") (ascii "prefix") (fun r => r.Handler) false
      { Annotation := { Properties := [(ascii "prefix", ascii " \"/api//v1/\" ")] },
        Routes := [] } (by decide)).2.2.2.2.2.2 (by decide)⟩

theorem stripOne_space (s : Str) : stripOne spaceEncodings (0x20 :: s) = some s := by
  simp [stripOne, spaceEncodings, List.find?, List.isPrefixOf]

theorem stripOne_space_reverse (s : Str) :
    stripOne (spaceEncodings.map List.reverse) (0x20 :: s) = some s := by
  simp [stripOne, spaceEncodings, List.find?, List.isPrefixOf]

theorem spaceEncodings_last_space :
    ∀ e ∈ spaceEncodings, e.getLast? = some 0x20 → e = [0x20] := by
  decide

theorem not_startsWithSpace_concat_space (p : Str) (hne : p ≠ []) (h : ¬ startsWithSpace p) :
    ¬ startsWithSpace (p ++ [0x20]) := by
  rintro ⟨e, he, hp⟩
  rcases List.prefix_concat_iff.mp hp with h1 | h1
  · have h2 := spaceEncodings_last_space e he (by rw [h1]; simp)
    rw [h2] at h1
    have h3 := congrArg List.length h1
    have hpos : 0 < p.length := List.length_pos.mpr hne
    rw [List.length_append, List.length_singleton] at h3
    omega
  · exact h ⟨e, he, h1⟩

theorem TrimSpace_of_noSpace (p : Str) (h1 : ¬ startsWithSpace p) (h2 : ¬ endsWithSpace p) :
    TrimSpace p = p := by
  unfold TrimSpace
  rw [trimLeftSpace_of_not_startsWithSpace p h1, trimRightSpace_of_not_endsWithSpace p h2]

theorem TrimSpace_spaces (p : Str) (hne : p ≠ []) (h1 : ¬ startsWithSpace p)
    (h2 : ¬ endsWithSpace p) : TrimSpace (0x20 :: (p ++ [0x20])) = p := by
  have hleft : trimLeftSpace (0x20 :: (p ++ [0x20])) = p ++ [0x20] := by
    unfold trimLeftSpace
    rw [List.length_cons, trimLeftWith, stripOne_space]
    exact trimLeftWith_of_none _ _ _
      (stripOne_none _ _ (fun e he hp =>
        not_startsWithSpace_concat_space p hne h1 ⟨e, he, hp⟩))
  unfold TrimSpace
  rw [hleft]
  have hright : trimLeftWith (spaceEncodings.map List.reverse) (p.length + 1)
      (0x20 :: p.reverse) = p.reverse := by
    rw [trimLeftWith]
    simp only [stripOne_space_reverse]
    apply trimLeftWith_of_none
    apply stripOne_none
    intro e1 he1 hp
    obtain ⟨e, he, rfl⟩ := List.mem_map.mp he1
    exact h2 ⟨e, he, ( List.reverse_prefix).mp hp⟩
  unfold trimRightSpace
  rw [List.reverse_append, List.reverse_singleton, List.singleton_append, List.length_append,
    List.length_singleton, hright, List.reverse_reverse]

theorem pathClean_element_slashes (p : Str) (hp : IsElement p) :
    pathClean (slash :: slash :: (p ++ [slash])) = slash :: p := by
  have hloop : cleanLoop true ((p ++ [slash]).length + 1) (p ++ [slash]) [slash] 1 =
      rootedBuffer [p] := by
    have h1 := cleanLoop_copy_element (p ++ [slash]).length p [slash] [] hp (Or.inr rfl)
      (fun e he => absurd he (List.not_mem_nil e))
    rw [rootedBuffer_nil] at h1
    rw [h1, List.length_append, List.length_singleton, cleanLoop_skip_slash]
    cases p.length <;> simp [cleanLoop]
  have hl : (rootedBuffer [p]).length ≠ 0 := by rw [rootedBuffer_cons]; simp
  simp only [pathClean, decide_True, if_true, List.length_cons]
  rw [cleanLoop_skip_slash, hloop, rootedBuffer_reverse]
  simp [hl, rootedPath, slashed]

/-- C7: for every path segment `p` that is not empty, has no `/`, no double quote and no
white space and is neither `.` nor `..`, the annotation values `p`, `/p/`, ` p ` and `"p"`
all normalize in `getRoutes` to the prefix `/p`. -/
theorem groupPrefix_segment (p : Str) (hne : p ≠ []) (hslash : slash ∉ p) (hquote : quote ∉ p)
    (hspace : ¬ containsSpace p) (hdot : p ≠ ascii ".") (hdotdot : p ≠ ascii "..") :
    groupPrefix p = ascii "/" ++ p ∧
      groupPrefix (ascii "/" ++ p ++ ascii "/") = ascii "/" ++ p ∧
      groupPrefix (ascii " " ++ p ++ ascii " ") = ascii "/" ++ p ∧
      groupPrefix (ascii "\"" ++ p ++ ascii "\"") = ascii "/" ++ p := by
  have hel : IsElement p := ⟨hne, hslash, hdot, hdotdot⟩
  have hs1 : ¬ startsWithSpace p := fun ⟨e, he, hp⟩ => hspace ⟨e, he, hp.isInfix⟩
  have hs2 : ¬ endsWithSpace p := fun ⟨e, he, hp⟩ => hspace ⟨e, he, hp.isInfix⟩
  have ha1 : ascii "/" = [slash] := by decide
  have ha2 : ascii " " = [0x20] := by decide
  have ha3 : ascii "\"" = [quote] := by decide
  have hq : removeByte quote p = p := removeByte_of_notMem quote p hquote
  have htrim : TrimSpace p = p := TrimSpace_of_noSpace p hs1 hs2
  have hbase : groupPrefix p = ascii "/" ++ p := by
    rw [groupPrefix_of_nonempty p (by rw [hq, htrim]; exact hne), hq, htrim, ha1]
    exact pathClean_element p hel
  refine ⟨hbase, ?_, ?_, ?_⟩
  · have hq2 : removeByte quote ([slash] ++ p ++ [slash]) = [slash] ++ p ++ [slash] := by
      apply removeByte_of_notMem
      intro hm
      simp only [List.mem_append, List.mem_singleton] at hm
      rcases hm with (hm | hm) | hm
      · exact absurd hm (by decide)
      · exact hquote hm
      · exact absurd hm (by decide)
    have htrim2 : TrimSpace ([slash] ++ p ++ [slash]) = [slash] ++ p ++ [slash] :=
      TrimSpace_of_noSpace _ (not_startsWithSpace_slash _) (not_endsWithSpace_slash _)
    rw [ha1, groupPrefix_of_nonempty _ (by rw [hq2, htrim2]; simp), hq2, htrim2]
    exact pathClean_element_slashes p hel
  · have hq2 : removeByte quote ([0x20] ++ p ++ [0x20]) = [0x20] ++ p ++ [0x20] := by
      apply removeByte_of_notMem
      intro hm
      simp only [List.mem_append, List.mem_singleton] at hm
      rcases hm with (hm | hm) | hm
      · exact absurd hm (by decide)
      · exact hquote hm
      · exact absurd hm (by decide)
    have htrim2 : TrimSpace ([0x20] ++ p ++ [0x20]) = p := by
      have := TrimSpace_spaces p hne hs1 hs2
      simpa using this
    rw [ha2, groupPrefix_of_nonempty _ (by rw [hq2, htrim2]; exact hne), hq2, htrim2, ha1]
    exact pathClean_element p hel
  · have hq2 : removeByte quote ([quote] ++ p ++ [quote]) = p := by
      have hf : ∀ a ∈ p, (a != quote) = true := by
        intro a ha
        have : a ≠ quote := fun hab => hquote (hab ▸ ha)
        simpa using this
      simp [removeByte, List.filter_append, List.filter_eq_self.mpr hf]
    rw [ha3, groupPrefix_of_nonempty _ (by rw [hq2, htrim]; exact hne), hq2, htrim, ha1]
    exact pathClean_element p hel

/-- An instance: `v1`, `/v1/`, ` v1 ` and `"v1"` all normalize to
`/v1`. -/
theorem groupPrefix_segment_witness :
    groupPrefix (ascii "v1") = ascii "/v1" ∧
      groupPrefix (ascii "/v1/") = ascii "/v1" ∧
      groupPrefix (ascii " v1 ") = ascii "/v1" ∧
      groupPrefix (ascii "\"v1\"") = ascii "/v1" :=
  groupPrefix_segment (ascii "v1") (by decide) (by decide) (by decide) (by decide) (by decide)
    (by decide)

/-! ## The order of strings -/

theorem strLt_irrefl : ∀ (a : Str), strLt a a = false
  | [] => rfl
  | x :: a => by simp [strLt, strLt_irrefl a]

theorem strLt_trans : ∀ (a b c : Str), strLt a b = true → strLt b c = true → strLt a c = true
  | [], [], _, h, _ => by simp [strLt] at h
  | [], _ :: _, [], _, h => by simp [strLt] at h
  | [], _ :: _, _ :: _, _, _ => by simp [strLt]
  | _ :: _, [], _, h, _ => by simp [strLt] at h
  | _ :: _, _ :: _, [], _, h => by simp [strLt] at h
  | x :: a, y :: b, z :: c, h1, h2 => by
    simp only [strLt] at h1 h2 ⊢
    by_cases hxy : x < y
    · by_cases hyz : y < z
      · simp [UInt8.lt_trans hxy hyz]
      · simp only [hyz, if_false] at h2
        by_cases hzy : z < y
        · simp [hzy] at h2
        · have : y = z := UInt8.le_antisymm (UInt8.not_lt.mp hzy) (UInt8.not_lt.mp hyz)
          subst this
          simp [hxy]
    · simp only [hxy, if_false] at h1
      by_cases hyx : y < x
      · simp [hyx] at h1
      · have hxy2 : x = y := UInt8.le_antisymm (UInt8.not_lt.mp hyx) (UInt8.not_lt.mp hxy)
        subst hxy2
        simp only [hyx, if_false] at h1
        by_cases hxz : x < z
        · simp [hxz]
        · simp only [hxz, if_false] at h2 ⊢
          by_cases hzx : z < x
          · simp [hzx] at h2
          · simp only [hzx, if_false] at h2 ⊢
            exact strLt_trans a b c h1 h2

theorem strLt_asymm (a b : Str) (h : strLt a b = true) : strLt b a = false := by
  cases h2 : strLt b a with
  | false => rfl
  | true =>
    have := strLt_trans a b a h h2
    rw [strLt_irrefl] at this
    cases this

theorem strLt_connex : ∀ (a b : Str), strLt a b = false → strLt b a = false → a = b
  | [], [], _, _ => rfl
  | [], _ :: _, h, _ => by simp [strLt] at h
  | _ :: _, [], _, h => by simp [strLt] at h
  | x :: a, y :: b, h1, h2 => by
    simp only [strLt] at h1 h2
    by_cases hxy : x < y
    · simp [hxy] at h1
    · by_cases hyx : y < x
      · simp [hyx] at h2
      · have : x = y := UInt8.le_antisymm (UInt8.not_lt.mp hyx) (UInt8.not_lt.mp hxy)
        subst this
        simp only [hxy, if_false] at h1 h2
        rw [strLt_connex a b h1 h2]

theorem strLe_isTotal : IsTotal Str strLe :=
  ⟨fun a b => by
    unfold strLe
    cases h : strLt b a with
    | false => exact Or.inl rfl
    | true => exact Or.inr (strLt_asymm b a h)⟩

theorem strLe_isTrans : IsTrans Str strLe :=
  ⟨fun a b c hab hbc => by
    unfold strLe at *
    cases h : strLt c a with
    | false => rfl
    | true =>
      cases h2 : strLt a b with
      | true =>
        have := strLt_trans c a b h h2
        rw [hbc] at this
        cases this
      | false =>
        have hab2 : a = b := strLt_connex a b h2 hab
        subst hab2
        rw [hbc] at h
        cases h⟩

theorem strLe_isAntisymm : IsAntisymm Str strLe :=
  ⟨fun a b hab hba => strLt_connex a b hba hab⟩

theorem sortStrings_perm (l : List Str) : (sortStrings l).Perm l :=
  List.perm_insertionSort strLe l

theorem sortStrings_sorted (l : List Str) : (sortStrings l).Sorted strLe :=
  haveI := strLe_isTotal
  haveI := strLe_isTrans
  List.sorted_insertionSort strLe l

theorem sortStrings_congr (l1 l2 : List Str) (h : l1.Perm l2) :
    sortStrings l1 = sortStrings l2 :=
  haveI := strLe_isAntisymm
  List.eq_of_perm_of_sorted ((sortStrings_perm l1).trans (h.trans (sortStrings_perm l2).symm))
    (sortStrings_sorted l1) (sortStrings_sorted l2)

theorem sortStrings_strict (l : List Str) (h : l.Nodup) :
    (sortStrings l).Pairwise (fun a b => strLt a b = true) := by
  have hs := sortStrings_sorted l
  have hn : (sortStrings l).Nodup := (sortStrings_perm l).nodup_iff.mpr h
  have hboth := List.Pairwise.and hs hn
  refine List.Pairwise.imp ?_ hboth
  intro a b hab
  obtain ⟨hle, hne⟩ := hab
  cases hlt : strLt a b with
  | true => rfl
  | false => exact absurd (strLt_connex a b hlt hle) hne

/-! ## `genRouteImports` -/

theorem mem_setAddStr (set : List Str) (key e : Str) :
    e ∈ setAddStr set key ↔ e ∈ set ∨ e = key := by
  unfold setAddStr
  by_cases h : key ∈ set
  · simp only [h, if_true]
    constructor
    · exact Or.inl
    · rintro (h1 | h1)
      · exact h1
      · rw [h1]; exact h
  · simp [h]

theorem nodup_setAddStr (set : List Str) (key : Str) (h : set.Nodup) :
    (setAddStr set key).Nodup := by
  unfold setAddStr
  by_cases hk : key ∈ set
  · simpa [hk] using h
  · simp only [hk, if_false]
    rw [List.nodup_append]
    refine ⟨h, List.nodup_singleton key, ?_⟩
    intro a ha hb
    rw [List.mem_singleton] at hb
    exact hk (hb ▸ ha)

/-- The folders `genRouteImports` imports: the non-empty resolved folders of the routes, in
the order of the specification. -/
theorem collectImports_spec (handlerDir groupProperty : Str) (JoinPackages : List Str → Str)
    (parentPkg : Str) :
    ∀ (groups : List Group) (set : List Str), set.Nodup →
      (collectImports handlerDir groupProperty JoinPackages parentPkg groups set).Nodup ∧
      ∀ e, e ∈ collectImports handlerDir groupProperty JoinPackages parentPkg groups set ↔
        e ∈ set ∨ ∃ g ∈ groups, ∃ r ∈ g.Routes, importFolder groupProperty g r ≠ [] ∧
          e = importEntry handlerDir JoinPackages parentPkg (importFolder groupProperty g r) := by
  have hroutes : ∀ (g : Group) (routes : List Route) (set : List Str), set.Nodup →
      (routes.foldl
        (fun set r =>
          let folder := importFolder groupProperty g r
          if folder.length = 0 then set
          else setAddStr set (importEntry handlerDir JoinPackages parentPkg folder))
        set).Nodup ∧
      ∀ e, e ∈ routes.foldl
          (fun set r =>
            let folder := importFolder groupProperty g r
            if folder.length = 0 then set
            else setAddStr set (importEntry handlerDir JoinPackages parentPkg folder))
          set ↔
        e ∈ set ∨ ∃ r ∈ routes, importFolder groupProperty g r ≠ [] ∧
          e = importEntry handlerDir JoinPackages parentPkg (importFolder groupProperty g r) := by
    intro g routes
    induction routes with
    | nil => intro set h; simp [h]
    | cons r routes ih =>
      intro set h
      simp only [List.foldl_cons]
      by_cases hf : importFolder groupProperty g r = []
      · have hl : (importFolder groupProperty g r).length = 0 := by simp [hf]
        simp only [hl, if_true]
        obtain ⟨h1, h2⟩ := ih set h
        refine ⟨h1, fun e => ?_⟩
        rw [h2 e]
        constructor
        · rintro (h3 | ⟨r1, hr1, h4⟩)
          · exact Or.inl h3
          · exact Or.inr ⟨r1, List.mem_cons_of_mem _ hr1, h4⟩
        · rintro (h3 | ⟨r1, hr1, h4, h5⟩)
          · exact Or.inl h3
          · rcases List.mem_cons.mp hr1 with rfl | hr1
            · exact absurd hf h4
            · exact Or.inr ⟨r1, hr1, h4, h5⟩
      · have hl : ¬ (importFolder groupProperty g r).length = 0 := by
          simpa using hf
        simp only [hl, if_false]
        obtain ⟨h1, h2⟩ := ih _ (nodup_setAddStr set
          (importEntry handlerDir JoinPackages parentPkg (importFolder groupProperty g r)) h)
        refine ⟨h1, fun e => ?_⟩
        rw [h2 e, mem_setAddStr]
        constructor
        · rintro ((h3 | h3) | ⟨r1, hr1, h4⟩)
          · exact Or.inl h3
          · exact Or.inr ⟨r, List.mem_cons_self _ _, hf, h3⟩
          · exact Or.inr ⟨r1, List.mem_cons_of_mem _ hr1, h4⟩
        · rintro (h3 | ⟨r1, hr1, h4, h5⟩)
          · exact Or.inl (Or.inl h3)
          · rcases List.mem_cons.mp hr1 with rfl | hr1
            · exact Or.inl (Or.inr h5)
            · exact Or.inr ⟨r1, hr1, h4, h5⟩
  intro groups
  induction groups with
  | nil => intro set h; simp [collectImports, h]
  | cons g groups ih =>
    intro set h
    obtain ⟨h1, h2⟩ := hroutes g g.Routes set h
    have ih2 := ih _ h1
    simp only [collectImports, List.foldl_cons] at ih2 ⊢
    refine ⟨ih2.1, fun e => ?_⟩
    rw [ih2.2 e, h2 e]
    constructor
    · rintro ((h3 | ⟨r, hr, h4⟩) | ⟨g1, hg1, h4⟩)
      · exact Or.inl h3
      · exact Or.inr ⟨g, List.mem_cons_self _ _, r, hr, h4⟩
      · exact Or.inr ⟨g1, List.mem_cons_of_mem _ hg1, h4⟩
    · rintro (h3 | ⟨g1, hg1, r, hr, h4⟩)
      · exact Or.inl (Or.inl h3)
      · rcases List.mem_cons.mp hg1 with rfl | hg1
        · exact Or.inl (Or.inr ⟨r, hr, h4⟩)
        · exact Or.inr ⟨g1, hg1, r, hr, h4⟩

theorem mem_resolvedFolders (groupProperty : Str) (api : ApiSpec) (f : Str) :
    f ∈ resolvedFolders groupProperty api ↔
      ∃ g ∈ api.Service.Groups, ∃ r ∈ g.Routes,
        importFolder groupProperty g r ≠ [] ∧ f = importFolder groupProperty g r := by
  simp only [resolvedFolders, List.mem_filter, List.mem_flatMap, List.mem_map, decide_eq_true_eq]
  constructor
  · rintro ⟨⟨g, hg, r, hr, rfl⟩, hne⟩
    exact ⟨g, hg, r, hr, hne, rfl⟩
  · rintro ⟨g, hg, r, hr, hne, rfl⟩
    exact ⟨⟨g, hg, r, hr, rfl⟩, hne⟩

theorem importSet_spec (contextDir handlerDir groupProperty : Str)
    (JoinPackages : List Str → Str) (parentPkg : Str) (api : ApiSpec) :
    (importSet contextDir handlerDir groupProperty JoinPackages parentPkg api).Nodup ∧
      ∀ e, e ∈ importSet contextDir handlerDir groupProperty JoinPackages parentPkg api ↔
        e = contextEntry contextDir JoinPackages parentPkg ∨
          ∃ f ∈ resolvedFolders groupProperty api,
            e = importEntry handlerDir JoinPackages parentPkg f := by
  have h0 : (setAddStr [] (contextEntry contextDir JoinPackages parentPkg)).Nodup :=
    nodup_setAddStr _ _ List.nodup_nil
  obtain ⟨h1, h2⟩ := collectImports_spec handlerDir groupProperty JoinPackages parentPkg
    api.Service.Groups _ h0
  refine ⟨h1, fun e => ?_⟩
  unfold importSet
  rw [h2 e, mem_setAddStr]
  constructor
  · rintro ((h3 | h3) | ⟨g, hg, r, hr, hne, he⟩)
    · exact absurd h3 (List.not_mem_nil e)
    · exact Or.inl h3
    · exact Or.inr ⟨_, (mem_resolvedFolders groupProperty api _).mpr ⟨g, hg, r, hr, hne, rfl⟩, he⟩
  · rintro (h3 | ⟨f, hf, he⟩)
    · exact Or.inl (Or.inr h3)
    · obtain ⟨g, hg, r, hr, hne, rfl⟩ := (mem_resolvedFolders groupProperty api f).mp hf
      exact Or.inr ⟨g, hg, r, hr, hne, he⟩

theorem genRouteImports_eq (contextDir handlerDir groupProperty ProjectOpenSourceURL : Str)
    (JoinPackages : List Str → Str) (KeysStr : List Str → List Str) (parentPkg : Str)
    (api : ApiSpec) :
    genRouteImports contextDir handlerDir groupProperty ProjectOpenSourceURL JoinPackages KeysStr
        parentPkg api =
      stringsJoin
          (sortStrings
            (KeysStr (importSet contextDir handlerDir groupProperty JoinPackages parentPkg api)))
          (ascii "\n\t") ++
        ascii "\n\n\t" ++ (ascii "\"" ++ ProjectOpenSourceURL ++ ascii "/rest\"") := rfl

/-- C8: whatever the order in which the import set enumerates its keys, the project-import
section returned by `genRouteImports` is the list of the distinct import entries (the
context package and one entry per resolved folder) in strictly ascending byte order, joined
by newline-tab, followed by a blank line and the one import of the router package. -/
theorem genRouteImports_sorted_distinct
    (contextDir handlerDir groupProperty ProjectOpenSourceURL : Str)
    (JoinPackages : List Str → Str) (KeysStr : List Str → List Str) (parentPkg : Str)
    (api : ApiSpec) (hkeys : ∀ l, (KeysStr l).Perm l) :
    (∃ imports : List Str,
      genRouteImports contextDir handlerDir groupProperty ProjectOpenSourceURL JoinPackages
          KeysStr parentPkg api =
        stringsJoin imports (ascii "\n\t") ++ ascii "\n\n\t" ++
          (ascii "\"" ++ ProjectOpenSourceURL ++ ascii "/rest\"") ∧
      imports.Pairwise (fun a b => strLt a b = true) ∧
      ∀ e, e ∈ imports ↔
        e = ascii "\"" ++ JoinPackages [parentPkg, contextDir] ++ ascii "\"" ∨
          ∃ f ∈ resolvedFolders groupProperty api,
            e = toPrefix f ++ ascii " \"" ++ JoinPackages [parentPkg, handlerDir, f] ++
              ascii "\"") ∧
    genRouteImports contextDir handlerDir groupProperty ProjectOpenSourceURL JoinPackages
        KeysStr parentPkg api =
      genRouteImports contextDir handlerDir groupProperty ProjectOpenSourceURL JoinPackages
        (fun keys => keys) parentPkg api := by
  obtain ⟨hnodup, hmem⟩ :=
    importSet_spec contextDir handlerDir groupProperty JoinPackages parentPkg api
  have hperm := hkeys (importSet contextDir handlerDir groupProperty JoinPackages parentPkg api)
  constructor
  · refine ⟨_, genRouteImports_eq _ _ _ _ _ _ _ _,
      sortStrings_strict _ (hperm.nodup_iff.mpr hnodup), fun e => ?_⟩
    rw [(sortStrings_perm _).mem_iff, hperm.mem_iff, hmem e]
    rfl
  · rw [genRouteImports_eq, genRouteImports_eq, sortStrings_congr _ _ hperm]

set_option maxRecDepth 20000 in
/-- An instance: two groups that resolve to the
sub-package `order` (and a route that resolves to `billing`) give one entry for `order`, and
the entries are in ascending order although the set enumerates them in reverse. -/
theorem genRouteImports_sorted_distinct_witness :
    genRouteImports (ascii "internal/svc") (ascii "internal/handler") (ascii "group")
        (ascii "github.com/hduhelp/go-zero") (fun pkgs => stringsJoin pkgs (ascii "/"))
        List.reverse (ascii "example.com/app") sampleApiOrder =
      ascii ("\"example.com/app/internal/svc\"\n\t" ++
        "billing \"example.com/app/internal/handler/billing\"\n\t" ++
        "order \"example.com/app/internal/handler/order\"\n\n\t" ++
        "\"github.com/hduhelp/go-zero/rest\"") ∧
      genRouteImports (ascii "internal/svc") (ascii "internal/handler") (ascii "group")
          (ascii "github.com/hduhelp/go-zero") (fun pkgs => stringsJoin pkgs (ascii "/"))
          List.reverse (ascii "example.com/app") sampleApiOrder =
        genRouteImports (ascii "internal/svc") (ascii "internal/handler") (ascii "group")
          (ascii "github.com/hduhelp/go-zero") (fun pkgs => stringsJoin pkgs (ascii "/"))
          (fun keys => keys) (ascii "example.com/app") sampleApiOrder :=
  ⟨by decide,
    (genRouteImports_sorted_distinct (ascii "internal/svc") (ascii "internal/handler")
      (ascii "group") (ascii "github.com/hduhelp/go-zero")
      (fun pkgs => stringsJoin pkgs (ascii "/")) List.reverse (ascii "example.com/app")
      sampleApiOrder (fun l => List.reverse_perm l)).2⟩

set_option maxRecDepth 20000 in
/-- C9, as stated, fails: the folders `a/b` and `ab` have the same alias `ab` and still get
an import entry each, so the block holds two sub-package entries for one alias. -/
theorem genRouteImports_same_alias_twice :
    resolvedFolders (ascii "group") sampleApiSameAlias = [ascii "a/b", ascii "ab"] ∧
      toPrefix (ascii "a/b") = toPrefix (ascii "ab") ∧
      ((resolvedFolders (ascii "group") sampleApiSameAlias).map toPrefix).dedup.length = 1 ∧
      importSet (ascii "internal/svc") (ascii "internal/handler") (ascii "group")
          (fun pkgs => stringsJoin pkgs (ascii "/")) (ascii "example.com/app")
          sampleApiSameAlias =
        [ ascii "\"example.com/app/internal/svc\"",
          ascii "ab \"example.com/app/internal/handler/a/b\"",
          ascii "ab \"example.com/app/internal/handler/ab\"" ] ∧
      genRouteImports (ascii "internal/svc") (ascii "internal/handler") (ascii "group")
          (ascii "github.com/hduhelp/go-zero") (fun pkgs => stringsJoin pkgs (ascii "/"))
          List.reverse (ascii "example.com/app") sampleApiSameAlias =
        ascii ("\"example.com/app/internal/svc\"\n\t" ++
          "ab \"example.com/app/internal/handler/a/b\"\n\t" ++
          "ab \"example.com/app/internal/handler/ab\"\n\n\t" ++
          "\"github.com/hduhelp/go-zero/rest\"") := by
  refine ⟨by decide, by decide, by decide, by decide, by decide⟩

/-- C9, amended: the import set of `genRouteImports` holds the entry of the context package
and one entry per distinct resolved folder, provided the package paths tell the folders of
the specification apart: its entries are pairwise different and their number is one more
than the number of distinct non-empty resolved folders. -/
theorem importSet_one_entry_per_folder (contextDir handlerDir groupProperty : Str)
    (JoinPackages : List Str → Str) (parentPkg : Str) (api : ApiSpec)
    (hctx : ∀ f ∈ resolvedFolders groupProperty api,
      importEntry handlerDir JoinPackages parentPkg f ≠
        contextEntry contextDir JoinPackages parentPkg)
    (hinj : ∀ f1 ∈ resolvedFolders groupProperty api,
      ∀ f2 ∈ resolvedFolders groupProperty api,
        importEntry handlerDir JoinPackages parentPkg f1 =
          importEntry handlerDir JoinPackages parentPkg f2 → f1 = f2) :
    (importSet contextDir handlerDir groupProperty JoinPackages parentPkg api).Nodup ∧
      (importSet contextDir handlerDir groupProperty JoinPackages parentPkg api).length =
        1 + (resolvedFolders groupProperty api).dedup.length ∧
      (∀ e, e ∈ importSet contextDir handlerDir groupProperty JoinPackages parentPkg api ↔
        e = contextEntry contextDir JoinPackages parentPkg ∨
          ∃ f ∈ resolvedFolders groupProperty api,
            e = importEntry handlerDir JoinPackages parentPkg f) ∧
      ∀ (ProjectOpenSourceURL : Str) (KeysStr : List Str → List Str),
        genRouteImports contextDir handlerDir groupProperty ProjectOpenSourceURL JoinPackages
            KeysStr parentPkg api =
          stringsJoin
              (sortStrings
                (KeysStr
                  (importSet contextDir handlerDir groupProperty JoinPackages parentPkg api)))
              (ascii "\n\t") ++
            ascii "\n\n\t" ++ (ascii "\"" ++ ProjectOpenSourceURL ++ ascii "/rest\"") := by
  obtain ⟨hnodup, hmem⟩ :=
    importSet_spec contextDir handlerDir groupProperty JoinPackages parentPkg api
  refine ⟨hnodup, ?_, hmem, fun _ _ => rfl⟩
  have hmap : ((resolvedFolders groupProperty api).dedup.map
      (importEntry handlerDir JoinPackages parentPkg)).Nodup := by
    apply List.Nodup.map_on _ (List.nodup_dedup _)
    intro x hx y hy hxy
    exact hinj x (List.mem_dedup.mp hx) y (List.mem_dedup.mp hy) hxy
  have hL : (contextEntry contextDir JoinPackages parentPkg ::
      (resolvedFolders groupProperty api).dedup.map
        (importEntry handlerDir JoinPackages parentPkg)).Nodup := by
    rw [List.nodup_cons]
    refine ⟨?_, hmap⟩
    intro hm
    obtain ⟨f, hf, he⟩ := List.mem_map.mp hm
    exact hctx f (List.mem_dedup.mp hf) he
  have hperm : (importSet contextDir handlerDir groupProperty JoinPackages parentPkg api).Perm
      (contextEntry contextDir JoinPackages parentPkg ::
        (resolvedFolders groupProperty api).dedup.map
          (importEntry handlerDir JoinPackages parentPkg)) := by
    rw [List.perm_ext_iff_of_nodup hnodup hL]
    intro e
    rw [hmem e, List.mem_cons, List.mem_map]
    constructor
    · rintro (h | ⟨f, hf, he⟩)
      · exact Or.inl h
      · exact Or.inr ⟨f, List.mem_dedup.mpr hf, he.symm⟩
    · rintro (h | ⟨f, hf, he⟩)
      · exact Or.inl h
      · exact Or.inr ⟨f, List.mem_dedup.mp hf, he.symm⟩
  rw [hperm.length_eq]
  simp [Nat.add_comm]

set_option maxRecDepth 20000 in
/-- An instance: the routes of the sample specification
resolve to `order`, `billing` and `order` again, and the import set has three entries. -/
theorem importSet_one_entry_per_folder_witness :
    resolvedFolders (ascii "group") sampleApiOrder =
        [ascii "order", ascii "billing", ascii "order"] ∧
      (importSet (ascii "internal/svc") (ascii "internal/handler") (ascii "group")
          (fun pkgs => stringsJoin pkgs (ascii "/")) (ascii "example.com/app")
          sampleApiOrder).length = 1 + 2 :=
  ⟨by decide,
    (importSet_one_entry_per_folder (ascii "internal/svc") (ascii "internal/handler")
      (ascii "group") (fun pkgs => stringsJoin pkgs (ascii "/")) (ascii "example.com/app")
      sampleApiOrder (by decide) (by decide)).2.1⟩

/-! ## The timeout flag and the group slice of `genCommonRoutes` -/

/-- C16: whenever `genCommonRoutes` succeeds, the timeout-used flag it returns is true
exactly when some group of its input has a non-empty timeout; whenever it fails, the flag
is false. -/
theorem genCommonRoutes_hasTimeout (parseDuration : Str → Option Int) (builder : Str)
    (groups : List group) (templateText : Template) :
    ((genCommonRoutes parseDuration builder groups templateText).err = none →
      ((genCommonRoutes parseDuration builder groups templateText).hasTimeout = true ↔
        ∃ g ∈ groups, g.timeout ≠ [])) ∧
    ((genCommonRoutes parseDuration builder groups templateText).err ≠ none →
      (genCommonRoutes parseDuration builder groups templateText).hasTimeout = false) := by
  rcases genCommonRoutes_cases parseDuration templateText builder groups with
    ⟨_, herr, hflag⟩ | ⟨_, heq⟩
  · exact ⟨fun h => absurd h herr, fun _ => hflag⟩
  · rw [heq]
    refine ⟨fun _ => ?_, fun h => absurd rfl h⟩
    simp only [List.any_eq_true, decide_eq_true_eq]

/-- An instance: the sample group, whose timeout is `500ms`, is rendered without error and
the flag is true. -/
theorem genCommonRoutes_hasTimeout_witness :
    (genCommonRoutes parseSimpleDuration [] [sampleGroup] routesAdditionTemplate).err = none ∧
      ((genCommonRoutes parseSimpleDuration [] [sampleGroup]
          routesAdditionTemplate).hasTimeout = true ↔
        ∃ g ∈ [sampleGroup], g.timeout ≠ []) :=
  ⟨by decide,
    (genCommonRoutes_hasTimeout parseSimpleDuration [] [sampleGroup]
      routesAdditionTemplate).1 (by decide)⟩

set_option maxRecDepth 20000 in
/-- C19 fails on the code: `genCommonRoutes` overwrites the middleware names of the groups
it is given. After rendering the sample group its names `Auth` and `Log` read
`serverCtx.Auth` and `serverCtx.Log`, and rendering the same slice again writes
`serverCtx.serverCtx.Auth`, a text different from the first. -/
theorem genCommonRoutes_overwrites_middlewares :
    (genCommonRoutes parseSimpleDuration [] [sampleGroupMiddleware]
        routesAdditionTemplate).err = none ∧
      (genCommonRoutes parseSimpleDuration [] [sampleGroupMiddleware]
          routesAdditionTemplate).groups.map (fun g => g.middlewares) =
        [[ascii "serverCtx.Auth", ascii "serverCtx.Log"]] ∧
      (genCommonRoutes parseSimpleDuration [] [sampleGroupMiddleware]
          routesAdditionTemplate).builder =
        ascii ("\n\tserver.AddRoutes(\n\t\trest.WithMiddlewares(\n[]rest.Middleware\x7b " ++
          "serverCtx.Auth, serverCtx.Log \x7d, \n []rest.Route\x7b\n\t\t\x7b\n\t\t\t" ++
          "Method:  http.MethodGet,\n\t\t\tPath:    \"/ping\",\n\t\t\t" ++
          "Handler: pingHandler(serverCtx),\n\t\t\x7d,\n\x7d..., \n),   \n\t)\n") ∧
      (genCommonRoutes parseSimpleDuration []
          (genCommonRoutes parseSimpleDuration [] [sampleGroupMiddleware]
            routesAdditionTemplate).groups
          routesAdditionTemplate).builder =
        ascii ("\n\tserver.AddRoutes(\n\t\trest.WithMiddlewares(\n[]rest.Middleware\x7b " ++
          "serverCtx.serverCtx.Auth, serverCtx.serverCtx.Log \x7d, \n []rest.Route\x7b\n\t\t\x7b\n\t\t\t" ++
          "Method:  http.MethodGet,\n\t\t\tPath:    \"/ping\",\n\t\t\t" ++
          "Handler: pingHandler(serverCtx),\n\t\t\x7d,\n\x7d..., \n),   \n\t)\n") := by
  refine ⟨by decide, by decide, by decide, by decide⟩

/-! ## `genGinRoutes` -/

theorem execute_gin (r : route) (middleware : Str) :
    routesAdditionTemplate.execute (ginData r middleware) =
      ascii "\n\tserver." ++ r.method ++ ascii "(\"" ++ r.path ++ ascii "\"" ++ middleware ++
        ascii "," ++ r.handler ++ ascii ")" := by
  have h : ascii "\n\tserver." = ascii "\n\t" ++ ascii "server." := by decide
  rw [h]
  simp [Template.execute, routesAdditionTemplate, Node.exec, Leaf.exec, execLeaves, ginData,
    Data.field, List.lookup, Val.truth, Val.print]

theorem ginMiddleware_eq (names : List Str) :
    ginMiddleware names = (names.map (fun name => ascii ",serverCtx." ++ name)).flatten := by
  induction names with
  | nil => rfl
  | cons p ps ih => simp [ginMiddleware, ih]

theorem ginWriteRoutes_eq (gt : Template) (middleware : Str) :
    ∀ (routes : List route) (builder : Str),
      ginWriteRoutes gt middleware builder routes =
        builder ++ (routes.map (fun r => gt.execute (ginData r middleware))).flatten := by
  intro routes
  induction routes with
  | nil => intro builder; simp [ginWriteRoutes]
  | cons r rs ih => intro builder; simp [ginWriteRoutes, ih]

theorem genGinLoop_eq (gt : Template) :
    ∀ (groups : List group) (builder : Str),
      genGinLoop gt groups builder =
        builder ++ (groups.map (fun g =>
          (g.routes.map (fun r => gt.execute (ginData r (ginMiddleware g.middlewares)))).flatten
            ++ ascii "\n")).flatten := by
  intro groups
  induction groups with
  | nil => intro builder; simp [genGinLoop]
  | cons g gs ih => intro builder; simp [genGinLoop, ih, ginWriteRoutes_eq]

theorem genGinLoop_congr (gt : Template) (builder : Str) (gs1 gs2 : List group)
    (h : gs1.map (fun g => (g.routes, g.middlewares)) =
      gs2.map (fun g => (g.routes, g.middlewares))) :
    genGinLoop gt gs1 builder = genGinLoop gt gs2 builder := by
  rw [genGinLoop_eq, genGinLoop_eq]
  have h2 : ∀ (gs : List group),
      gs.map (fun g =>
          (g.routes.map (fun r => gt.execute (ginData r (ginMiddleware g.middlewares)))).flatten
            ++ ascii "\n") =
        (gs.map (fun g => (g.routes, g.middlewares))).map (fun p =>
          (p.1.map (fun r => gt.execute (ginData r (ginMiddleware p.2)))).flatten
            ++ ascii "\n") := by
    intro gs
    rw [List.map_map]
    rfl
  rw [h2 gs1, h2 gs2, h]

/-- C11: for every list of group IRs, whatever their timeouts are, `genGinRoutes` with the
built-in template returns the flag false and no error, and the text it writes is the text
for the same groups with every timeout set to the empty string. -/
theorem genGinRoutes_ignores_timeout (builder : Str) (groups : List group) :
    (genGinRoutes builder groups routesAdditionTemplate).hasTimeout = false ∧
      (genGinRoutes builder groups routesAdditionTemplate).err = none ∧
      (genGinRoutes builder groups routesAdditionTemplate).builder =
        (genGinRoutes builder (groups.map (fun g => { g with timeout := [] }))
          routesAdditionTemplate).builder := by
  refine ⟨rfl, rfl, ?_⟩
  apply genGinLoop_congr
  rw [List.map_map]
  rfl

/-- C17: with the built-in template `genGinRoutes` writes, for every group in order, one
statement `server.METHOD("PATH"MW,HANDLER)` per route entry in order, where `MW` is
`,serverCtx.NAME` for every middleware name of the group in order, and one newline after the
group; the number of statements is the total number of routes. -/
theorem genGinRoutes_statements (builder : Str) (groups : List group) :
    (genGinRoutes builder groups routesAdditionTemplate).builder =
      builder ++ (groups.map (fun g =>
        (g.routes.map (fun r =>
          ascii "\n\tserver." ++ r.method ++ ascii "(\"" ++ r.path ++ ascii "\"" ++
            (g.middlewares.map (fun name => ascii ",serverCtx." ++ name)).flatten ++
            ascii "," ++ r.handler ++ ascii ")")).flatten ++ ascii "\n")).flatten ∧
    ((groups.map (fun g =>
        g.routes.map (fun r =>
          ascii "\n\tserver." ++ r.method ++ ascii "(\"" ++ r.path ++ ascii "\"" ++
            (g.middlewares.map (fun name => ascii ",serverCtx." ++ name)).flatten ++
            ascii "," ++ r.handler ++ ascii ")"))).flatten).length =
      (groups.map (fun g => g.routes.length)).sum := by
  constructor
  · show genGinLoop routesAdditionTemplate groups builder = _
    rw [genGinLoop_eq]
    simp only [execute_gin, ginMiddleware_eq]
  · induction groups with
    | nil => rfl
    | cons g gs ih =>
      simp only [List.map_cons, List.flatten_cons, List.length_append, List.length_map,
        List.sum_cons, ih]

/-- C20: the text `genGinRoutes` writes depends only on the route entries and the middleware
names of the groups: two lists of group IRs that agree on these give the same text, however
they differ in `jwtEnabled`, `authName`, `jwtTrans`, `signatureEnabled`, the prefix or the
timeout. -/
theorem genGinRoutes_only_routes_and_middlewares (builder : Str) (groups1 groups2 : List group)
    (templateText : Template)
    (h : groups1.map (fun g => (g.routes, g.middlewares)) =
      groups2.map (fun g => (g.routes, g.middlewares))) :
    (genGinRoutes builder groups1 templateText).builder =
      (genGinRoutes builder groups2 templateText).builder :=
  genGinLoop_congr templateText builder groups1 groups2 h

set_option maxRecDepth 20000 in
/-- An instance: the sample middleware group gives the same text with and without JWT,
JWT transition, signature, prefix and timeout. -/
theorem genGinRoutes_only_routes_and_middlewares_witness :
    (genGinRoutes [] [sampleGroupMiddlewarePolicies] routesAdditionTemplate).builder =
        ascii "\n\tserver.http.MethodGet(\"/ping\",serverCtx.Auth,serverCtx.Log,pingHandler(serverCtx))\n" ∧
      (genGinRoutes [] [sampleGroupMiddleware] routesAdditionTemplate).builder =
        (genGinRoutes [] [sampleGroupMiddlewarePolicies] routesAdditionTemplate).builder :=
  ⟨by decide,
    genGinRoutes_only_routes_and_middlewares [] [sampleGroupMiddleware]
      [sampleGroupMiddlewarePolicies] routesAdditionTemplate (by decide)⟩

/-! ## Order, method symbols and aliases of `getRoutes` -/

/-- C12: `getRoutes` returns one group IR per group of the specification, in the order of
the specification, and each IR holds one route entry per route of its group, in order, with
the path of that route. -/
theorem getRoutes_preserves_order (groupProperty routePrefixKey : Str)
    (getHandlerName : Route → Str) (api : ApiSpec) (useGin : Bool) :
    ∃ groups,
      getRoutes groupProperty routePrefixKey getHandlerName api useGin = .ok groups ∧
      groups.length = api.Service.Groups.length ∧
      groups.map (fun g => g.routes.length) =
        api.Service.Groups.map (fun g => g.Routes.length) ∧
      groups.map (fun g => g.routes.map (fun r => r.path)) =
        api.Service.Groups.map (fun g => g.Routes.map (fun r => r.Path)) := by
  refine ⟨_, getRoutes_eq _ _ _ _ _, by simp, ?_, ?_⟩
  · rw [List.map_map]
    apply List.map_congr_left
    intro g _
    simp [groupIR_routes]
  · rw [List.map_map]
    apply List.map_congr_left
    intro g _
    simp only [Function.comp, groupIR_routes, List.map_map]
    apply List.map_congr_left
    intro r _
    rfl

/-- C13: `getRoutes` always succeeds, and the method symbol of every route entry is the
value of the table of the flavor at the method token of the route when the token is a key
and the empty string otherwise; the keys of the minimal flavor are the nine lower-case
method names, those of the feature-rich flavor leave `trace` and `connect` out, and an
upper-case spelling such as `GET` is a key of neither. -/
theorem getRoutes_method_symbol (groupProperty routePrefixKey : Str)
    (getHandlerName : Route → Str) (api : ApiSpec) (useGin : Bool) :
    (∃ groups,
      getRoutes groupProperty routePrefixKey getHandlerName api useGin = .ok groups ∧
      groups.map (fun g => g.routes.map (fun r => r.method)) =
        api.Service.Groups.map (fun g => g.Routes.map (fun r =>
          match (if useGin then ginMapping else mapping).lookup r.Method with
          | some symbol => symbol
          | none => []))) ∧
    mapping.map Prod.fst =
      [ascii "delete", ascii "get", ascii "head", ascii "post", ascii "put", ascii "patch",
        ascii "connect", ascii "options", ascii "trace"] ∧
    ginMapping.map Prod.fst =
      [ascii "delete", ascii "get", ascii "head", ascii "post", ascii "put", ascii "patch",
        ascii "options"] ∧
    ginMapping.lookup (ascii "trace") = none ∧
    ginMapping.lookup (ascii "connect") = none ∧
    mapping.lookup (ascii "GET") = none ∧
    ginMapping.lookup (ascii "GET") = none := by
  refine ⟨⟨_, getRoutes_eq _ _ _ _ _, ?_⟩, by decide, by decide, by decide, by decide,
    by decide, by decide⟩
  rw [List.map_map]
  apply List.map_congr_left
  intro g _
  simp only [Function.comp, groupIR_routes, List.map_map]
  apply List.map_congr_left
  intro r _
  show (routeEntry groupProperty getHandlerName useGin g r).method = _
  cases useGin <;> simp [routeEntry, mapIndex]

/-- C18: `getRoutes` and `genRouteImports` agree on aliases. The handler reference of a
route whose resolved folder (route annotation first, else group annotation) is not empty
starts with the alias of that folder and a `.`, and the import block has the entry that
binds this alias to the package path of the folder; a route without a resolved folder keeps
the raw handler call, and every entry of the block other than the context entry comes from
a non-empty resolved folder. -/
theorem getRoutes_aliases_imported
    (contextDir handlerDir groupProperty routePrefixKey ProjectOpenSourceURL : Str)
    (getHandlerName : Route → Str) (JoinPackages : List Str → Str)
    (KeysStr : List Str → List Str) (parentPkg : Str) (api : ApiSpec) (useGin : Bool)
    (hkeys : ∀ l, (KeysStr l).Perm l) :
    ∃ groups imports,
      getRoutes groupProperty routePrefixKey getHandlerName api useGin = .ok groups ∧
      genRouteImports contextDir handlerDir groupProperty ProjectOpenSourceURL JoinPackages
          KeysStr parentPkg api =
        stringsJoin imports (ascii "\n\t") ++ ascii "\n\n\t" ++
          (ascii "\"" ++ ProjectOpenSourceURL ++ ascii "/rest\"") ∧
      groups.map (fun g => g.routes.map (fun r => r.handler)) =
        api.Service.Groups.map (fun g => g.Routes.map (fun r =>
          if importFolder groupProperty g r ≠ [] then
            toPrefix (importFolder groupProperty g r) ++ ascii "." ++
              upperFirst (getHandlerName r ++ ascii "(serverCtx)")
          else getHandlerName r ++ ascii "(serverCtx)")) ∧
      (∀ g ∈ api.Service.Groups, ∀ r ∈ g.Routes, importFolder groupProperty g r ≠ [] →
        toPrefix (importFolder groupProperty g r) ++ ascii " \"" ++
            JoinPackages [parentPkg, handlerDir, importFolder groupProperty g r] ++ ascii "\""
          ∈ imports) ∧
      (∀ e ∈ imports,
        e = ascii "\"" ++ JoinPackages [parentPkg, contextDir] ++ ascii "\"" ∨
          ∃ g ∈ api.Service.Groups, ∃ r ∈ g.Routes, importFolder groupProperty g r ≠ [] ∧
            e = toPrefix (importFolder groupProperty g r) ++ ascii " \"" ++
              JoinPackages [parentPkg, handlerDir, importFolder groupProperty g r] ++
              ascii "\"") := by
  obtain ⟨_, hmem⟩ :=
    importSet_spec contextDir handlerDir groupProperty JoinPackages parentPkg api
  have hperm := hkeys (importSet contextDir handlerDir groupProperty JoinPackages parentPkg api)
  have hin : ∀ e, e ∈ sortStrings
      (KeysStr (importSet contextDir handlerDir groupProperty JoinPackages parentPkg api)) ↔
      e = contextEntry contextDir JoinPackages parentPkg ∨
        ∃ f ∈ resolvedFolders groupProperty api,
          e = importEntry handlerDir JoinPackages parentPkg f := by
    intro e
    rw [(sortStrings_perm _).mem_iff, hperm.mem_iff, hmem e]
  refine ⟨_, _, getRoutes_eq _ _ _ _ _, genRouteImports_eq _ _ _ _ _ _ _ _, ?_, ?_, ?_⟩
  · rw [List.map_map]
    apply List.map_congr_left
    intro g _
    simp only [Function.comp, groupIR_routes, List.map_map]
    apply List.map_congr_left
    intro r _
    show (routeEntry groupProperty getHandlerName useGin g r).handler = _
    simp only [routeEntry, handlerRef, importFolder]
    by_cases h1 : r.GetAnnotation groupProperty = []
    · by_cases h2 : g.GetAnnotation groupProperty = []
      · simp [h1, h2]
      · have hl : (g.GetAnnotation groupProperty).length > 0 := List.length_pos.mpr h2
        simp [h1, h2, hl]
    · have hl : (r.GetAnnotation groupProperty).length > 0 := List.length_pos.mpr h1
      have hl2 : ¬ (r.GetAnnotation groupProperty).length = 0 := by omega
      simp [h1, hl, hl2]
  · intro g hg r hr hne
    apply (hin _).mpr
    right
    exact ⟨_, (mem_resolvedFolders groupProperty api _).mpr ⟨g, hg, r, hr, hne, rfl⟩, rfl⟩
  · intro e he
    rcases (hin e).mp he with h | ⟨f, hf, h⟩
    · exact Or.inl h
    · obtain ⟨g, hg, r, hr, hne, rfl⟩ := (mem_resolvedFolders groupProperty api f).mp hf
      exact Or.inr ⟨g, hg, r, hr, hne, h⟩

set_option maxRecDepth 20000 in
/-- An instance: in the sample specification the handler references carry the aliases
`order` and `billing`, and the import block binds both. -/
theorem getRoutes_aliases_imported_witness :
    (∀ l : List Str, (List.reverse l).Perm l) ∧
      (getRoutes (ascii "group") (ascii "prefix") (fun r => r.Handler ++ ascii "Handler")
          sampleApiOrder false).toOption.map (fun groups =>
            groups.map (fun g => g.routes.map (fun r => r.handler))) =
        some [ [ascii "order.ListHandler(serverCtx)", ascii "billing.BillsHandler(serverCtx)"],
               [ascii "order.CreateHandler(serverCtx)"] ] ∧
      ∃ groups imports,
        getRoutes (ascii "group") (ascii "prefix") (fun r => r.Handler ++ ascii "Handler")
            sampleApiOrder false = .ok groups ∧
        genRouteImports (ascii "internal/svc") (ascii "internal/handler") (ascii "group")
            (ascii "github.com/hduhelp/go-zero") (fun pkgs => stringsJoin pkgs (ascii "/"))
            List.reverse (ascii "example.com/app") sampleApiOrder =
          stringsJoin imports (ascii "\n\t") ++ ascii "\n\n\t" ++
            (ascii "\"" ++ ascii "github.com/hduhelp/go-zero" ++ ascii "/rest\"") :=
  ⟨fun l => List.reverse_perm l, by decide,
    (getRoutes_aliases_imported (ascii "internal/svc") (ascii "internal/handler")
      (ascii "group") (ascii "prefix") (ascii "github.com/hduhelp/go-zero")
      (fun r => r.Handler ++ ascii "Handler") (fun pkgs => stringsJoin pkgs (ascii "/"))
      List.reverse (ascii "example.com/app") sampleApiOrder false
      (fun l => List.reverse_perm l)).imp
      (fun _ h => h.imp (fun _ h2 => ⟨h2.1, h2.2.1⟩))⟩

/-! ## `genMiddleware` -/

theorem ToLower_ascii (unicodeLower : Str → Str) (s : Str)
    (h : s.all (fun c => c < 0x80) = true) : ToLower unicodeLower s = s.map asciiLower := by
  simp only [ToLower, h, if_true]

theorem Title_ascii (unicodeTitle : Str → Str) (s : Str)
    (h : s.all (fun c => c < 0x80) = true) : Title unicodeTitle s = titleLoop 0x20 s := by
  simp only [Title, h, if_true]

set_option maxRecDepth 20000 in
/-- C14 fails on the code: for the identifier `authmiddleware` the file base name is
`auth_middleware`, the suffix being removed whatever its case, but the symbol name is
`AuthmiddlewareMiddleware`, because the suffix is removed from the symbol only when it is
spelled `Middleware`; `AuthMiddleware` and `Auth` both give `AuthMiddleware`. -/
theorem genMiddleware_symbol_keeps_lowercase_suffix :
    (∀ unicodeLower : Str → Str,
      middlewareFilename unicodeLower (ascii "authmiddleware") = ascii "auth_middleware" ∧
      middlewareFilename unicodeLower (ascii "AuthMiddleware") = ascii "auth_middleware" ∧
      middlewareFilename unicodeLower (ascii "Auth") = ascii "auth_middleware") ∧
    (∀ unicodeTitle : Str → Str,
      Title unicodeTitle (middlewareName (ascii "authmiddleware")) =
        ascii "AuthmiddlewareMiddleware" ∧
      Title unicodeTitle (middlewareName (ascii "AuthMiddleware")) = ascii "AuthMiddleware" ∧
      Title unicodeTitle (middlewareName (ascii "Auth")) = ascii "AuthMiddleware") ∧
    genMiddleware sampleMiddlewareEnv [] (ascii "app") ⟨ascii "gozero"⟩
        (sampleApiMiddleware (ascii "authmiddleware")) false =
      (none, [(ascii "app/internal/middleware/auth_middleware.go",
                ascii "AuthmiddlewareMiddleware")]) := by
  refine ⟨fun ul => ⟨?_, ?_, ?_⟩, fun ut => ⟨?_, ?_, ?_⟩, by decide⟩
  · rw [middlewareFilename, ToLower_ascii ul _ (by decide)]; decide
  · rw [middlewareFilename, ToLower_ascii ul _ (by decide)]; decide
  · rw [middlewareFilename, ToLower_ascii ul _ (by decide)]; decide
  · rw [Title_ascii ut _ (by decide)]; decide
  · rw [Title_ascii ut _ (by decide)]; decide
  · rw [Title_ascii ut _ (by decide)]; decide

set_option maxRecDepth 20000 in
/-- C15, as stated, fails: the distinct identifiers `Auth` and `auth` (and `AuthMiddleware`)
all get the file base name `auth_middleware`, and `genMiddleware` sends them to one file. -/
theorem middlewareFilename_shared :
    ascii "Auth" ≠ ascii "auth" ∧
      middlewareFilename (fun s => s) (ascii "Auth") = ascii "auth_middleware" ∧
      middlewareFilename (fun s => s) (ascii "auth") = ascii "auth_middleware" ∧
      middlewareFilename (fun s => s) (ascii "AuthMiddleware") = ascii "auth_middleware" ∧
      sampleMiddlewareEnv.getMiddleware (sampleApiMiddleware (ascii "Auth,auth")) =
        [ascii "Auth", ascii "auth"] ∧
      genMiddleware sampleMiddlewareEnv [] (ascii "app") ⟨ascii "gozero"⟩
          (sampleApiMiddleware (ascii "Auth,auth")) false =
        (none, [(ascii "app/internal/middleware/auth_middleware.go", ascii "AuthMiddleware")]) ∧
      ¬ (∀ a b : Str, a ≠ b →
        middlewareFilename (fun s => s) a ≠ middlewareFilename (fun s => s) b) := by
  refine ⟨by decide, by decide, by decide, by decide, by decide, by decide, ?_⟩
  intro h
  exact h (ascii "Auth") (ascii "auth") (by decide) (by decide)

theorem TrimSuffix_append_of_suffix (x suffix : Str) (h : suffix <:+ x) :
    TrimSuffix x suffix ++ suffix = x := by
  have hb : suffix.isSuffixOf x = true := List.isSuffixOf_iff_suffix.mpr h
  obtain ⟨t, rfl⟩ := h
  simp [TrimSuffix, hb]

theorem TrimSuffix_of_not_suffix (x suffix : Str) (h : ¬ suffix <:+ x) :
    TrimSuffix x suffix = x := by
  have hb : ¬ suffix.isSuffixOf x = true := fun hb => h (List.isSuffixOf_iff_suffix.mp hb)
  simp [TrimSuffix, hb]

theorem TrimSuffix_eq_iff (x y suffix : Str) :
    TrimSuffix x suffix = TrimSuffix y suffix ↔
      x = y ∨ (x = y ++ suffix ∧ ¬ suffix <:+ y) ∨ (y = x ++ suffix ∧ ¬ suffix <:+ x) := by
  by_cases hx : suffix <:+ x
  · by_cases hy : suffix <:+ y
    · have h1 := TrimSuffix_append_of_suffix x suffix hx
      have h2 := TrimSuffix_append_of_suffix y suffix hy
      constructor
      · intro h
        left
        rw [← h1, ← h2, h]
      · rintro (h | ⟨_, h⟩ | ⟨_, h⟩)
        · rw [h]
        · exact absurd hy h
        · exact absurd hx h
    · have h1 := TrimSuffix_append_of_suffix x suffix hx
      rw [TrimSuffix_of_not_suffix y suffix hy]
      constructor
      · intro h
        right; left
        exact ⟨by rw [← h1, h], hy⟩
      · rintro (h | ⟨h, _⟩ | ⟨_, h⟩)
        · exact absurd (h ▸ hx) hy
        · exact List.append_cancel_right (h1.trans h)
        · exact absurd hx h
  · rw [TrimSuffix_of_not_suffix x suffix hx]
    by_cases hy : suffix <:+ y
    · have h2 := TrimSuffix_append_of_suffix y suffix hy
      constructor
      · intro h
        right; right
        exact ⟨by rw [← h2, ← h], hx⟩
      · rintro (h | ⟨_, h⟩ | ⟨h, _⟩)
        · exact absurd (h ▸ hy) hx
        · exact absurd hy h
        · exact (List.append_cancel_right (h2.trans h)).symm
    · rw [TrimSuffix_of_not_suffix y suffix hy]
      constructor
      · exact Or.inl
      · rintro (h | ⟨h, _⟩ | ⟨h, _⟩)
        · exact h
        · exact absurd ⟨y, h.symm⟩ hx
        · exact absurd ⟨x, h.symm⟩ hy

/-- C15, amended: `genMiddleware` derives the same file base name for two identifiers
exactly when their lower-cased spellings are equal, or one of them is the other followed by
`middleware` and the shorter one does not itself end in `middleware`; every other pair of
identifiers gets different file base names. -/
theorem middlewareFilename_eq_iff (unicodeLower : Str → Str) (a b : Str) :
    middlewareFilename unicodeLower a = middlewareFilename unicodeLower b ↔
      ToLower unicodeLower a = ToLower unicodeLower b ∨
      (ToLower unicodeLower a = ToLower unicodeLower b ++ ascii "middleware" ∧
        ¬ ascii "middleware" <:+ ToLower unicodeLower b) ∨
      (ToLower unicodeLower b = ToLower unicodeLower a ++ ascii "middleware" ∧
        ¬ ascii "middleware" <:+ ToLower unicodeLower a) := by
  rw [← TrimSuffix_eq_iff]
  unfold middlewareFilename
  exact List.append_left_inj _

/-- An instance: `Auth` and `AuthMiddleware` share their file base name, and
`AuthMiddleware` and `AuthMiddlewareMiddleware` have different ones. -/
theorem middlewareFilename_eq_iff_witness :
    middlewareFilename (fun s => s) (ascii "AuthMiddleware") =
        middlewareFilename (fun s => s) (ascii "Auth") ∧
      middlewareFilename (fun s => s) (ascii "AuthMiddleware") ≠
        middlewareFilename (fun s => s) (ascii "AuthMiddlewareMiddleware") :=
  ⟨(middlewareFilename_eq_iff (fun s => s) (ascii "AuthMiddleware") (ascii "Auth")).mpr
      (Or.inr (Or.inl (by decide))),
    fun h =>
      absurd
        ((middlewareFilename_eq_iff (fun s => s) (ascii "AuthMiddleware")
          (ascii "AuthMiddlewareMiddleware")).mp h)
        (by decide)⟩

end Gogen
